import Mathlib

/-!
# hardhat-docgen: the member resolver of `src/index.js`

A shallow embedding of the per-contract body of the `docgen` task
(`src/index.js`, lines 48-137): signature derivation (`getSigType`), the member
index (`members`), the five annotation merges (`Object.assign` sequence), the
grouping by `type` (`membersByType`) and the assembled record
(`output[contractName]`); of the task itself as the sequence of its actions
(`docgenTask`, lines 27-159), with the two path checks; and of the loop of the
compile override (`pushOutputSelections`, lines 161-165).

Modelling conventions.

* A JavaScript string is a list of characters (`Str`).
* A JSON object is an association list in property order; a property read is
  the first entry with that name (`getProp`), a property write replaces the value
  of an existing name in place and appends a new name (`setProp`).  Objects that
  come out of `JSON.parse` have pairwise distinct names.  Field order is
  insertion order (an engine lists integer-like names first; no name the
  program enumerates in `members` is one, a signature contains a parenthesis).
* Only own properties are modelled.  Every name the program looks up in
  `members` is a signature or a name followed by `()`, and the three groups read
  from `membersByType` are `event`, `stateVariable` and `function`; none of
  these is a property of `Object.prototype`.  The other groups of
  `membersByType` (such as `constructor`) are never read, and the statements
  below are about the three that are.  A field named `__proto__` is outside
  the model.
* The ABI is typed the way the compiler emits it: `type` is a string, `name`
  an optional string, `inputs` and `components` optional arrays of parameter
  descriptors.  Annotation values are arbitrary JSON.  Where a statement
  depends on the shape of the strings of an ABI, that shape is a hypothesis:
  type strings hold no dollar sign (`Param.dollarFree`), derived types are
  well-formed type strings (`wellFormedType`), names hold no parenthesis.
-/

namespace Docgen

/-- A JavaScript string. -/
abbrev Str := List Char

/-! ## String primitives -/

/-- When `pat` is a prefix of `s`, the rest of `s` after it. -/
def stripPrefix : Str → Str → Option Str
  | [], s => some s
  | _ :: _, [] => none
  | p :: ps, c :: cs => if p = c then stripPrefix ps cs else none

/-- The text before and after the first occurrence of `pat` in a string, when
there is one. -/
def splitFirst (pat : Str) : Str → Option (Str × Str)
  | [] => (stripPrefix pat []).map fun r => ([], r)
  | c :: cs =>
    match stripPrefix pat (c :: cs) with
    | some r => some ([], r)
    | none => (splitFirst pat cs).map fun p => (c :: p.1, p.2)

/-- The replacement text of `String.prototype.replace` for a string pattern
(ECMAScript `GetSubstitution` with no captures): in the template, `$$` stands
for a dollar sign, `$&` for the matched text, a dollar sign followed by a
backtick for the text before the match and a dollar sign followed by an
apostrophe for the text after it; every other character stands for itself. -/
def getSubstitution (matched before after : Str) : Str → Str
  | [] => []
  | [c] => [c]
  | c :: d :: r =>
    if c = '$' then
      if d = '$' then '$' :: getSubstitution matched before after r
      else if d = '&' then matched ++ getSubstitution matched before after r
      else if d = Char.ofNat 96 then before ++ getSubstitution matched before after r
      else if d = Char.ofNat 39 then after ++ getSubstitution matched before after r
      else c :: getSubstitution matched before after (d :: r)
    else c :: getSubstitution matched before after (d :: r)

/-- The call `s.replace(pat, rep)` with a string pattern: the first occurrence
of `pat` is replaced by the expansion of `rep`; without an occurrence the
string is returned as it is. -/
def replace (s pat rep : Str) : Str :=
  match splitFirst pat s with
  | none => s
  | some (before, after) => before ++ getSubstitution pat before after rep ++ after

/-- The call `xs.join(sep)` on an array of strings. -/
def join (sep : Str) : List Str → Str
  | [] => []
  | [x] => x
  | x :: y :: r => x ++ sep ++ join sep (y :: r)

/-- The call `k.startsWith(pre)`. -/
def startsWith (pre s : Str) : Bool :=
  (stripPrefix pre s).isSome

/-- The call `s.split(sep)` for a one-character separator. -/
def split (sep : Char) : Str → List Str
  | [] => [[]]
  | c :: cs =>
    if c = sep then [] :: split sep cs
    else
      match split sep cs with
      | [] => [[c]]
      | h :: t => (c :: h) :: t

/-- Whether a replacement template holds one of the four special sequences of
`getSubstitution`. -/
def hasPattern : Str → Bool
  | [] => false
  | [_] => false
  | c :: d :: r =>
    (c = '$' && (d = '$' || d = '&' || d = Char.ofNat 96 || d = Char.ofNat 39))
      || hasPattern (d :: r)

/-- The nesting depth after a type string is read from depth `d`; `none` when a
closing parenthesis has no opening one, or a comma stands outside all
parentheses. -/
def scanType (d : Nat) : Str → Option Nat
  | [] => some d
  | c :: r =>
    if c = '(' then scanType (d + 1) r
    else if c = ')' then (if d = 0 then none else scanType (d - 1) r)
    else if c = ',' then (if d = 0 then none else scanType d r)
    else scanType d r

/-- The nesting depth after a string is read from depth `d`, commas being
ordinary characters; `none` when a closing parenthesis has no opening one. -/
def scanParens (d : Nat) : Str → Option Nat
  | [] => some d
  | c :: r =>
    if c = '(' then scanParens (d + 1) r
    else if c = ')' then (if d = 0 then none else scanParens (d - 1) r)
    else scanParens d r

/-- A well-formed derived type: not empty, its parentheses balanced, and every
comma inside parentheses (`uint256`, `(uint256,address)[]`). -/
def wellFormedType (t : Str) : Bool :=
  !t.isEmpty && scanType 0 t == some 0

/-! ## ABI parameter descriptors and `getSigType` -/

/-- An ABI parameter descriptor: its `type` string and its `components`, absent
or an array of descriptors.  Fields the program never reads (`name`,
`internalType`, `indexed`) are left out. -/
inductive Param where
  | mk (type : Str) (components : Option (List Param))

/-- The `type` field of a descriptor. -/
def Param.type : Param → Str
  | .mk t _ => t

/-- The `components` field of a descriptor. -/
def Param.components : Param → Option (List Param)
  | .mk _ c => c

mutual
/-- Source lines 60-62:
`type.replace('tuple', '(' + components.map(getSigType).join(',') + ')')`,
with `components` defaulting to the empty array. -/
def getSigType : Param → Str
  | .mk type components =>
    replace type "tuple".toList
      ("(".toList ++ join ",".toList (getSigTypeDefault components) ++ ")".toList)
/-- The destructuring default `components = []` followed by
`components.map(getSigType)`. -/
def getSigTypeDefault : Option (List Param) → List Str
  | none => []
  | some ps => getSigTypeMap ps
/-- The call `ps.map(getSigType)`. -/
def getSigTypeMap : List Param → List Str
  | [] => []
  | p :: ps => getSigType p :: getSigTypeMap ps
end

mutual
/-- Whether no type string of a descriptor, those of its components included,
holds a dollar sign, as is the case for the type strings of an ABI. -/
def Param.dollarFree : Param → Bool
  | .mk type components => decide ('$' ∉ type) && dollarFreeDefault components
/-- Whether the components of a descriptor, none when absent, are free of
dollar signs. -/
def dollarFreeDefault : Option (List Param) → Bool
  | none => true
  | some ps => dollarFreeAll ps
/-- Whether the descriptors of a list are free of dollar signs. -/
def dollarFreeAll : List Param → Bool
  | [] => true
  | p :: ps => p.dollarFree && dollarFreeAll ps
end

/-! ## JSON values and objects -/

/-- A JSON value.  A number is carried as the text JavaScript prints for it; an
array of parameter descriptors (`inputs`) is kept typed. -/
inductive JVal where
  | null
  | bool (b : Bool)
  | num (text : Str)
  | str (s : Str)
  | arr (xs : List JVal)
  | obj (fields : List (Str × JVal))
  | params (ps : List Param)

/-- A JSON object: its properties in order. -/
abbrev Obj := List (Str × JVal)

/-- The property names of an object, `Object.keys(o)`. -/
def keys {α : Type} (o : List (Str × α)) : List Str :=
  o.map Prod.fst

/-- The property read `o[k]`. -/
def getProp {α : Type} (k : Str) : List (Str × α) → Option α
  | [] => none
  | (k', v) :: t => if k' = k then some v else getProp k t

/-- The property write `o[k] = v`: an existing property keeps its place, a new
one is appended. -/
def setProp {α : Type} (k : Str) (v : α) : List (Str × α) → List (Str × α)
  | [] => [(k, v)]
  | (k', v') :: t => if k' = k then (k, v) :: t else (k', v') :: setProp k v t

/-- The call `Object.assign(target, src)` for an object `src`: each property of
`src` is written to `target`, in order. -/
def assign (target src : Obj) : Obj :=
  src.foldl (fun t kv => setProp kv.1 kv.2 t) target

mutual
/-- The string JavaScript converts a JSON value to (`ToString`), as a template
literal or a computed property name does. -/
def jsToString : JVal → Str
  | .null => "null".toList
  | .bool b => if b then "true".toList else "false".toList
  | .num text => text
  | .str s => s
  | .arr xs => join ",".toList (jsToStringElems xs)
  | .obj _ => "[object Object]".toList
  | .params ps => join ",".toList (ps.map fun _ => "[object Object]".toList)
/-- The element strings of `Array.prototype.join`: `null` gives the empty
string. -/
def jsToStringElems : List JVal → List Str
  | [] => []
  | .null :: r => [] :: jsToStringElems r
  | x :: r => jsToString x :: jsToStringElems r
end

/-! ## ABI members and the member index -/

/-- One entry of a contract's ABI array: `type`, the optional `name`, the
optional `inputs`, and its remaining fields (`outputs`, `stateMutability`,
`anonymous`, ...). -/
structure AbiMember where
  type : Str
  name : Option Str
  inputs : Option (List Param)
  rest : Obj

/-- The ABI member as the JSON object the index stores and the merges write
to. -/
def AbiMember.toObj (el : AbiMember) : Obj :=
  ("type".toList, JVal.str el.type)
    :: (match el.name with
        | some n => [("name".toList, JVal.str n)]
        | none => [])
    ++ (match el.inputs with
        | some ps => [("inputs".toList, JVal.params ps)]
        | none => [])
    ++ el.rest

/-- Source line 66, `el.name || el.type`: the name, unless it is absent or the
empty string. -/
def resolvedName (el : AbiMember) : Str :=
  match el.name with
  | some n => if n = [] then el.type else n
  | none => el.type

/-- Source lines 67-68, `(el.inputs || []).map(getSigType)`. -/
def sigTypes (el : AbiMember) : List Str :=
  (el.inputs.getD []).map getSigType

/-- Source line 68, the template literal: name, an opening parenthesis, the
derived input types joined by commas (the conversion of the array to a
string), a closing parenthesis. -/
def sigKey (el : AbiMember) : Str :=
  resolvedName el ++ "(".toList ++ join ",".toList (sigTypes el) ++ ")".toList

/-- The member index: signature key to record. -/
abbrev Index := List (Str × Obj)

/-- Source lines 64-70, `abi.reduce(function (acc, el) ..., {})`. -/
def members (abi : List AbiMember) : Index :=
  abi.foldl (fun acc el => setProp (sigKey el) el.toObj acc) []

/-! ## Annotation merge -/

/-- A documentation sub-map (`methods`, `events`, `stateVariables`). -/
abbrev DocMap := List (Str × Obj)

/-- The devdoc tree. -/
structure DevDoc where
  title : Option JVal
  author : Option JVal
  details : Option JVal
  events : Option DocMap
  stateVariables : Option DocMap
  methods : Option DocMap

/-- The userdoc tree. -/
structure UserDoc where
  notice : Option JVal
  events : Option DocMap
  methods : Option DocMap

/-- The destructuring default `devdoc = {}`. -/
def DevDoc.empty : DevDoc :=
  ⟨none, none, none, none, none, none⟩

/-- The destructuring default `userdoc = {}`. -/
def UserDoc.empty : UserDoc :=
  ⟨none, none, none⟩

/-- The call `Object.assign(members[sig] || {}, src1, ..., srcn)`: with a
record at `sig` the sources are written to it, in order; without one they are
written to a fresh object that nobody keeps. -/
def assignAt (sig : Str) (srcs : List Obj) (members : Index) : Index :=
  match getProp sig members with
  | some r => setProp sig (srcs.foldl assign r) members
  | none => members

/-- The loop `Object.keys(m || {}).forEach(sig => Object.assign(members[sig] ||
{}, m[sig]))` of source lines 74-79, 89-94, 96-101 and 103-108. -/
def mergeMap (m : Option DocMap) (members : Index) : Index :=
  (keys (m.getD [])).foldl
    (fun acc sig => assignAt sig [(getProp sig (m.getD [])).getD []] acc) members

/-- The object literal of source line 85. -/
def stateVariableStamp : Obj :=
  [("type".toList, JVal.str "stateVariable".toList)]

/-- The loop of source lines 81-87 over `devdoc.stateVariables`: the target is
the record at the name followed by `()`. -/
def mergeStateVariables (m : Option DocMap) (members : Index) : Index :=
  (keys (m.getD [])).foldl
    (fun acc name =>
      assignAt (name ++ "()".toList)
        [(getProp name (m.getD [])).getD [], stateVariableStamp] acc) members

/-- Source lines 74-108: the five merges in order. -/
def mergeDocs (devdoc : DevDoc) (userdoc : UserDoc) (members : Index) : Index :=
  mergeMap userdoc.methods
    (mergeMap userdoc.events
      (mergeMap devdoc.methods
        (mergeStateVariables devdoc.stateVariables
          (mergeMap devdoc.events members))))

/-- The shallow overlay of a record by the entry of a documentation sub-map at
a key: the fields of the entry are written over the record; without an entry
the overlay is skipped. -/
def overlay (m : Option DocMap) (s : Str) (r : Obj) : Obj :=
  match getProp s (m.getD []) with
  | some d => assign r d
  | none => r

/-! ## Grouping and assembly -/

/-- The property name `acc[type]` uses for a record: its `type` field converted
to a string, `undefined` when the field is absent. -/
def typeKey (r : Obj) : Str :=
  match getProp "type".toList r with
  | some v => jsToString v
  | none => "undefined".toList

/-- The reducer of source lines 110-115: the record at `sig` is written, under
`sig`, to the group of its type, which is created when it does not exist. -/
def groupInto (members : Index) (acc : List (Str × Index)) (sig : Str) :
    List (Str × Index) :=
  match getProp sig members with
  | some r => setProp (typeKey r) (setProp sig r ((getProp (typeKey r) acc).getD [])) acc
  | none => acc

/-- Source lines 110-115, `Object.keys(members).reduce(..., {})`. -/
def membersByType (members : Index) : List (Str × Index) :=
  (keys members).foldl (groupInto members) []

/-- Source line 117: the record at the first key that starts with
`constructor(`; without such a key the lookup is `members[undefined]`. -/
def findConstructor (members : Index) : Option Obj :=
  match (keys members).find? (startsWith "constructor(".toList) with
  | some k => getProp k members
  | none => getProp "undefined".toList members

/-- The record `output[contractName]` of source lines 120-137. -/
structure ContractDoc where
  source : Option Str
  name : Option Str
  title : Option JVal
  author : Option JVal
  details : Option JVal
  notice : Option JVal
  constructor : Option Obj
  fallback : Option Obj
  receive : Option Obj
  events : Option Index
  stateVariables : Option Index
  methods : Option Index

/-- The member index of a contract after the five merges, with the defaults
`devdoc = {}` and `userdoc = {}` of source line 51. -/
def mergedIndex (abi : List AbiMember) (devdoc : Option DevDoc)
    (userdoc : Option UserDoc) : Index :=
  mergeDocs (devdoc.getD DevDoc.empty) (userdoc.getD UserDoc.empty) (members abi)

/-- The body of the loop over contract names (source lines 49-137) for one
contract: its fully-qualified name and the `abi`, `devdoc` and `userdoc` of its
build output. -/
def contractDoc (contractName : Str) (abi : List AbiMember)
    (devdoc : Option DevDoc) (userdoc : Option UserDoc) : ContractDoc :=
  let dd := devdoc.getD DevDoc.empty
  let ud := userdoc.getD UserDoc.empty
  let merged := mergedIndex abi devdoc userdoc
  let byType := membersByType merged
  { source := (split ':' contractName)[0]?
    name := (split ':' contractName)[1]?
    title := dd.title
    author := dd.author
    details := dd.details
    notice := ud.notice
    constructor := findConstructor merged
    fallback := getProp "fallback()".toList merged
    receive := getProp "receive()".toList merged
    events := getProp "event".toList byType
    stateVariables := getProp "stateVariable".toList byType
    methods := getProp "function".toList byType }

/-- The keys of a group of the output; an absent group has none. -/
def groupKeys (g : Option Index) : List Str :=
  keys (g.getD [])

/-! ## The `docgen` task and the compile override -/

/-- An action of the `docgen` task on the outside world. -/
inductive Effect where
  | rmdir (dir : Str)
  | getAllFullyQualifiedNames
  | getBuildInfo (contractName : Str)
  | webpack (outputPath : Str)
  deriving DecidableEq

/-- A run of the `docgen` task: the actions it performed, in order, and the
error it threw, if any. -/
structure TaskRun where
  effects : List Effect
  error : Option Str
  deriving DecidableEq

/-- The `docgen` task, source lines 27-159, as the sequence of its actions.
`outputDirectory` is the resolved path of line 32, `clear` is `config.clear`,
`contractNames` is what `getAllFullyQualifiedNames` returns and `webpackError`
what the bundler reports.  The two checks of lines 34-40 come first. -/
def docgenTask (root outputDirectory : Str) (clear : Bool) (contractNames : List Str)
    (webpackError : Option Str) : TaskRun :=
  if !startsWith root outputDirectory then
    ⟨[], some "resolved path must be inside of project directory".toList⟩
  else if outputDirectory = root then
    ⟨[], some "resolved path must not be root directory".toList⟩
  else
    ⟨(if clear then [Effect.rmdir outputDirectory] else [])
        ++ [Effect.getAllFullyQualifiedNames]
        ++ contractNames.map Effect.getBuildInfo
        ++ [Effect.webpack outputDirectory],
      webpackError⟩

/-- A resolved path lies inside the project root when it is the root or a
descendant path of it: the root, a separator (unless the root ends with one)
and something more. -/
def liesInside (root path : Str) : Bool :=
  path == root ||
    (match stripPrefix (if root.getLast? = some '/' then root else root ++ "/".toList) path with
     | some rest => !rest.isEmpty
     | none => false)

/-- The two calls `push('devdoc')` and `push('userdoc')` on the array at
address `i` of the store. -/
def pushDocs (i : Nat) : List (List Str) → List (List Str)
  | [] => []
  | a :: t =>
    match i with
    | 0 => (a ++ ["devdoc".toList] ++ ["userdoc".toList]) :: t
    | i + 1 => a :: pushDocs i t

/-- The loop of the compile override, source lines 162-165.  `store` holds the
arrays `settings.outputSelection['*']['*']`, and `compilers` gives, for each
compiler configuration in order, the address of its array (two configurations
may share one). -/
def pushOutputSelections (store : List (List Str)) (compilers : List Nat) :
    List (List Str) :=
  compilers.foldl (fun st i => pushDocs i st) store

/-! ## Example inputs -/

/-- The ABI `[{type: "function", name: "get", inputs: [{type: "tuple",
components: [{type: "uint256"}, {type: "address"}]}]}]`. -/
def getterAbi : List AbiMember :=
  [{ type := "function".toList
     name := some "get".toList
     inputs := some [Param.mk "tuple".toList
       (some [Param.mk "uint256".toList none, Param.mk "address".toList none])]
     rest := [] }]

/-- An ABI with two members of signature key `f()`. -/
def collidingAbi : List AbiMember :=
  [{ type := "function".toList, name := some "f".toList, inputs := none,
     rest := [("stateMutability".toList, JVal.str "view".toList)] },
   { type := "function".toList, name := some "f".toList, inputs := some [],
     rest := [("stateMutability".toList, JVal.str "pure".toList)] }]

/-- The devdoc `{stateVariables: {balance: {details: "token balance"}}}`. -/
def balanceDevDoc : DevDoc :=
  { title := none, author := none, details := none, events := none
    stateVariables := some [("balance".toList,
      [("details".toList, JVal.str "token balance".toList)])]
    methods := none }

/-- An ABI with a constructor, the getter `balance()`, the function
`send(address)` and the event `Sent(address)`. -/
def tokenAbi : List AbiMember :=
  [{ type := "constructor".toList, name := none,
     inputs := some [Param.mk "uint256".toList none], rest := [] },
   { type := "function".toList, name := some "balance".toList, inputs := some [],
     rest := [("stateMutability".toList, JVal.str "view".toList)] },
   { type := "function".toList, name := some "send".toList,
     inputs := some [Param.mk "address".toList none], rest := [] },
   { type := "event".toList, name := some "Sent".toList,
     inputs := some [Param.mk "address".toList none],
     rest := [("anonymous".toList, JVal.bool false)] }]

/-- A devdoc for `tokenAbi`, with an annotation for a method `gone()` that the
ABI does not have. -/
def tokenDevDoc : DevDoc :=
  { title := some (JVal.str "Token".toList), author := none, details := none
    events := some [("Sent(address)".toList, [("details".toList, JVal.str "sent".toList)])]
    stateVariables := some [("balance".toList,
      [("details".toList, JVal.str "token balance".toList)])]
    methods := some [("send(address)".toList, [("details".toList, JVal.str "sends".toList)]),
      ("gone()".toList, [("details".toList, JVal.str "removed".toList)])] }

/-- A userdoc for `tokenAbi`. -/
def tokenUserDoc : UserDoc :=
  { notice := some (JVal.str "A token".toList), events := none
    methods := some [("send(address)".toList, [("notice".toList, JVal.str "Send".toList)])] }

/-! ## Auxiliary definitions of the proofs -/

/-- What `join` with a comma puts after the first element: nothing when no
element follows, else a comma and the rest joined. -/
def joinRest : List Str → Str
  | [] => []
  | t :: ts => ',' :: join ",".toList (t :: ts)

/-- The value the writes of `src` leave at field `k`: that of the last entry of
`src` named `k`, and `x` when there is none. -/
def lastOr (k : Str) (x : JVal) (src : Obj) : JVal :=
  src.foldl (fun acc p => if p.1 = k then p.2 else acc) x

/-- A sequence of calls `Object.assign(members[sig] || {}, src)`, one per entry
`(sig, src)`, in order. -/
def assignSeq (calls : List (Str × Obj)) (members : Index) : Index :=
  calls.foldl (fun acc p => assignAt p.1 [p.2] acc) members

/-- All the sources a sequence of calls writes to the record at `s`, in order,
as one source. -/
def srcFor (s : Str) : List (Str × Obj) → Obj
  | [] => []
  | (k, src) :: calls => (if k = s then src else []) ++ srcFor s calls

/-- The calls of `mergeMap`. -/
def mapCalls (m : Option DocMap) : List (Str × Obj) :=
  (keys (m.getD [])).map fun sig => (sig, (getProp sig (m.getD [])).getD [])

/-- The calls of `mergeStateVariables`, the two sources of each call taken as
one. -/
def stateVariableCalls (m : Option DocMap) : List (Str × Obj) :=
  (keys (m.getD [])).map fun name =>
    (name ++ "()".toList, (getProp name (m.getD [])).getD [] ++ stateVariableStamp)

/-- The calls of `mergeDocs`. -/
def docCalls (devdoc : DevDoc) (userdoc : UserDoc) : List (Str × Obj) :=
  mapCalls devdoc.events ++ stateVariableCalls devdoc.stateVariables
    ++ mapCalls devdoc.methods ++ mapCalls userdoc.events ++ mapCalls userdoc.methods

/-! # Lemmas and theorems -/

/-! ## Strings -/

theorem stripPrefix_eq_some (pat s r : Str) : stripPrefix pat s = some r ↔ s = pat ++ r := by
  induction pat generalizing s with
  | nil => simp [stripPrefix, eq_comm]
  | cons p ps ih =>
    cases s with
    | nil => simp [stripPrefix]
    | cons c cs =>
      by_cases h : p = c
      · subst h; simp [stripPrefix, ih]
      · simp [stripPrefix, h]; intro h1; exact absurd h1.symm h

theorem stripPrefix_append (pat r : Str) : stripPrefix pat (pat ++ r) = some r :=
  (stripPrefix_eq_some pat _ r).2 rfl

theorem splitFirst_none (pat s : Str) (h : splitFirst pat s = none) : ¬ pat <:+: s := by
  induction s with
  | nil =>
    rintro ⟨a, b, hab⟩
    have : pat = [] := by
      exact (List.append_eq_nil.1 (List.append_eq_nil.1 hab).1).2
    subst this
    simp [splitFirst, stripPrefix] at h
  | cons c cs ih =>
    rintro ⟨a, b, hab⟩
    unfold splitFirst at h
    cases hs : stripPrefix pat (c :: cs) with
    | some r => rw [hs] at h; simp at h
    | none =>
      rw [hs] at h
      simp at h
      cases a with
      | nil =>
        have : stripPrefix pat (c :: cs) = some b := (stripPrefix_eq_some _ _ _).2 (by simpa using hab.symm)
        rw [hs] at this; simp at this
      | cons x a' =>
        simp at hab
        exact ih h ⟨a', b, by simpa using hab.2⟩

theorem splitFirst_at_start (pat r : Str) : splitFirst pat (pat ++ r) = some ([], r) := by
  cases hs : pat ++ r with
  | nil =>
    have hp : pat = [] := (List.append_eq_nil.1 hs).1
    have hr : r = [] := (List.append_eq_nil.1 hs).2
    subst hp; subst hr
    simp [splitFirst, stripPrefix]
  | cons c cs =>
    unfold splitFirst
    rw [← hs, stripPrefix_append]

theorem hasPattern_append_single (t : Str) (c : Char) (h1 : c ≠ '$') (h2 : c ≠ '&')
    (h3 : c ≠ Char.ofNat 96) (h4 : c ≠ Char.ofNat 39) :
    hasPattern (t ++ [c]) = hasPattern t := by
  induction t using hasPattern.induct with
  | case1 => simp [hasPattern]
  | case2 x => simp [hasPattern, h1, h2, h3, h4]
  | case3 x y r ih =>
    have e : x :: y :: r ++ [c] = x :: y :: (r ++ [c]) := rfl
    rw [e]
    simp only [hasPattern]
    rw [show y :: (r ++ [c]) = y :: r ++ [c] from rfl, ih]

theorem getSubstitution_of_hasPattern (m b a t : Str) (h : hasPattern t = false) :
    getSubstitution m b a t = t := by
  induction t using hasPattern.induct with
  | case1 => simp [getSubstitution]
  | case2 x => simp [getSubstitution]
  | case3 x y r ih =>
    simp only [hasPattern, Bool.or_eq_false_iff] at h
    have ih' := ih h.2
    have h1 := h.1
    simp only [Bool.and_eq_false_iff, Bool.or_eq_false_iff, decide_eq_false_iff_not] at h1
    unfold getSubstitution
    by_cases hx : x = '$'
    · have := h1.resolve_left (fun hn => hn hx)
      simp [hx, this.1.1.1, this.1.1.2, this.1.2, this.2]
      simpa [hx] using ih'
    · simp [hx, ih']

theorem splitFirst_some (pat s b a : Str) (h : splitFirst pat s = some (b, a)) :
    s = b ++ pat ++ a := by
  induction s generalizing b with
  | nil =>
    simp only [splitFirst, Option.map_eq_some'] at h
    obtain ⟨r, hr, he⟩ := h
    have := (stripPrefix_eq_some _ _ _).1 hr
    simp only [Prod.mk.injEq] at he
    rw [← he.1, ← he.2]; simpa using this
  | cons c cs ih =>
    unfold splitFirst at h
    cases hs : stripPrefix pat (c :: cs) with
    | some r =>
      rw [hs] at h
      simp only [Option.some.injEq, Prod.mk.injEq] at h
      rw [← h.1, ← h.2]
      simpa using (stripPrefix_eq_some _ _ _).1 hs
    | none =>
      rw [hs] at h
      simp only [Option.map_eq_some'] at h
      obtain ⟨p, hp, he⟩ := h
      simp only [Prod.mk.injEq] at he
      have := ih p.1 (by rw [hp, ← he.2])
      rw [← he.1]
      simp [this]

theorem splitFirst_eq_none_iff (pat s : Str) : splitFirst pat s = none ↔ ¬ pat <:+: s := by
  constructor
  · exact splitFirst_none pat s
  · intro h
    cases hs : splitFirst pat s with
    | none => rfl
    | some p =>
      exact absurd ⟨p.1, p.2, (splitFirst_some pat s p.1 p.2 hs).symm⟩ h

theorem getSigTypeMap_eq (ps : List Param) : getSigTypeMap ps = ps.map getSigType := by
  induction ps with
  | nil => simp [getSigTypeMap]
  | cons p ps ih => simp [getSigTypeMap, ih]

theorem getSigTypeDefault_eq (c : Option (List Param)) :
    getSigTypeDefault c = (c.getD []).map getSigType := by
  cases c with
  | none => simp [getSigTypeDefault]
  | some ps => simp [getSigTypeDefault, getSigTypeMap_eq]

theorem getSigType_eq (p : Param) :
    getSigType p = replace p.type "tuple".toList
      ("(".toList ++ join ",".toList ((p.components.getD []).map getSigType) ++ ")".toList) := by
  cases p with
  | mk t c => rw [getSigType, getSigTypeDefault_eq]; rfl

theorem replace_of_not_infix (s pat rep : Str) (h : ¬ pat <:+: s) : replace s pat rep = s := by
  unfold replace
  rw [(splitFirst_eq_none_iff pat s).2 h]

theorem replace_at_start (pat r rep : Str) (h : hasPattern rep = false) :
    replace (pat ++ r) pat rep = rep ++ r := by
  simp only [replace, splitFirst_at_start, getSubstitution_of_hasPattern _ _ _ _ h,
    List.nil_append]

theorem hasPattern_template (j : Str) (h : hasPattern j = false) :
    hasPattern ("(".toList ++ j ++ ")".toList) = false := by
  have e : "(".toList ++ j ++ ")".toList = '(' :: (j ++ [')']) := rfl
  rw [e]
  have h2 : hasPattern (j ++ [')']) = false := by
    rw [hasPattern_append_single j ')' (by decide) (by decide) (by decide) (by decide)]
    exact h
  cases hj : j ++ [')'] with
  | nil => simp [hasPattern]
  | cons d r =>
    rw [hj] at h2
    simp only [hasPattern, h2, Bool.or_false, Bool.and_eq_false_iff, decide_eq_false_iff_not]
    left; decide

theorem join_cons_cons (sep x y : Str) (r : List Str) :
    join sep (x :: y :: r) = x ++ sep ++ join sep (y :: r) := rfl

theorem hasPattern_of_no_dollar (t : Str) (h : '$' ∉ t) : hasPattern t = false := by
  induction t using hasPattern.induct with
  | case1 => rfl
  | case2 x => rfl
  | case3 x y r ih =>
    have hx : ¬ x = '$' := fun e => h (e ▸ List.mem_cons_self _ _)
    have ih' := ih fun hm => h (List.mem_cons_of_mem _ hm)
    simp [hasPattern, hx, ih']

theorem join_dollar_free (ts : List Str) (h : ∀ t ∈ ts, '$' ∉ t) :
    '$' ∉ join ",".toList ts := by
  induction ts with
  | nil => simp [join]
  | cons t ts ih =>
    have ht := h t (List.mem_cons_self _ _)
    have ih' := ih fun x hx => h x (List.mem_cons_of_mem _ hx)
    cases ts with
    | nil => simpa [join] using ht
    | cons u us =>
      rw [join_cons_cons]
      intro hm
      rcases List.mem_append.1 hm with h1 | h1
      · rcases List.mem_append.1 h1 with h2 | h2
        · exact ht h2
        · exact absurd h2 (by decide)
      · exact ih' h1

theorem replace_dollar_free (s pat rep : Str) (hs : '$' ∉ s) (hr : '$' ∉ rep) :
    '$' ∉ replace s pat rep := by
  unfold replace
  cases h : splitFirst pat s with
  | none => exact hs
  | some p =>
    obtain ⟨b, a⟩ := p
    have e := splitFirst_some pat s b a h
    simp only
    rw [getSubstitution_of_hasPattern _ _ _ _ (hasPattern_of_no_dollar rep hr)]
    intro hm
    rcases List.mem_append.1 hm with h1 | h1
    · rcases List.mem_append.1 h1 with h2 | h2
      · exact hs (by rw [e]; simp [h2])
      · exact hr h2
    · exact hs (by rw [e]; simp [h1])

mutual
theorem getSigType_dollar_free : (p : Param) → p.dollarFree = true → '$' ∉ getSigType p
  | .mk type components, h => by
    simp only [Param.dollarFree, Bool.and_eq_true, decide_eq_true_eq] at h
    rw [getSigType]
    apply replace_dollar_free _ _ _ h.1
    intro hm
    rcases List.mem_append.1 hm with h1 | h1
    · rcases List.mem_append.1 h1 with h2 | h2
      · exact absurd h2 (by decide)
      · exact join_dollar_free _ (getSigTypeDefault_dollar_free components h.2) h2
    · exact absurd h1 (by decide)
theorem getSigTypeDefault_dollar_free :
    (c : Option (List Param)) → dollarFreeDefault c = true →
      ∀ t ∈ getSigTypeDefault c, '$' ∉ t
  | none, _ => by simp [getSigTypeDefault]
  | some ps, h => by
    rw [getSigTypeDefault]
    exact getSigTypeMap_dollar_free ps (by simpa [dollarFreeDefault] using h)
theorem getSigTypeMap_dollar_free :
    (ps : List Param) → dollarFreeAll ps = true → ∀ t ∈ getSigTypeMap ps, '$' ∉ t
  | [], _ => by simp [getSigTypeMap]
  | p :: ps, h => by
    simp only [dollarFreeAll, Bool.and_eq_true] at h
    intro t ht
    rw [getSigTypeMap, List.mem_cons] at ht
    rcases ht with e | ht
    · rw [e]; exact getSigType_dollar_free p h.1
    · exact getSigTypeMap_dollar_free ps h.2 t ht
end

/-! ## Signature derivation (C2, C3) -/

/-- The derived types of the empty tuple, of `tuple[]` with the components
`uint256` and `address`, and of a tuple nested in a tuple array of fixed
size. -/
theorem getSigType_examples :
    getSigType (Param.mk "tuple".toList none) = "()".toList ∧
    getSigType (Param.mk "tuple".toList (some [])) = "()".toList ∧
    getSigType (Param.mk "tuple[]".toList
        (some [Param.mk "uint256".toList none, Param.mk "address".toList none]))
      = "(uint256,address)[]".toList ∧
    getSigType (Param.mk "tuple[2]".toList
        (some [Param.mk "tuple".toList (some [Param.mk "bool".toList none]),
          Param.mk "bytes32".toList none]))
      = "((bool),bytes32)[2]".toList := by
  decide

/-- C3. For every ABI parameter descriptor whose type string does not contain
the substring `tuple`, `getSigType` returns the type string unchanged, whatever
its components field holds. -/
theorem getSigType_without_tuple (type : Str) (components : Option (List Param))
    (h : ¬ "tuple".toList <:+: type) :
    getSigType (Param.mk type components) = type := by
  rw [getSigType_eq]
  exact replace_of_not_infix _ _ _ h

/-- C3 at the descriptor `{type: "uint256[]", components: [{type: "tuple"}]}`. -/
theorem getSigType_without_tuple_witness :
    ¬ "tuple".toList <:+: "uint256[]".toList ∧
      getSigType (Param.mk "uint256[]".toList (some [Param.mk "tuple".toList none]))
        = "uint256[]".toList :=
  ⟨by decide, getSigType_without_tuple _ _ (by decide)⟩

theorem getSigType_tuple_of_no_pattern (s : Str) (components : Option (List Param))
    (h : hasPattern (join ",".toList ((components.getD []).map getSigType)) = false) :
    getSigType (Param.mk ("tuple".toList ++ s) components)
      = "(".toList ++ join ",".toList ((components.getD []).map getSigType)
          ++ ")".toList ++ s := by
  rw [getSigType_eq]
  exact replace_at_start _ _ _ (hasPattern_template _ h)

/-- C2. For every ABI parameter descriptor whose type is `tuple` followed by a
suffix `s` and whose components (none when absent) have derived types
`t1..tn`, `getSigType` returns `(t1,...,tn)` followed by `s`.  The components
are arbitrary descriptors of an ABI, whose type strings hold no dollar sign,
so this holds at every nesting depth; the suffix is any string. -/
theorem getSigType_tuple (s : Str) (components : Option (List Param))
    (h : dollarFreeDefault components = true) :
    getSigType (Param.mk ("tuple".toList ++ s) components)
      = "(".toList ++ join ",".toList ((components.getD []).map getSigType)
          ++ ")".toList ++ s := by
  apply getSigType_tuple_of_no_pattern
  apply hasPattern_of_no_dollar
  rw [← getSigTypeDefault_eq]
  exact join_dollar_free _ (getSigTypeDefault_dollar_free components h)

/-- C2 at `tuple[]` with the components `uint256` and `address`, whose derived
type is `(uint256,address)[]`, and at the empty tuple, whose derived type is
`()`. -/
theorem getSigType_tuple_witness :
    dollarFreeDefault (some [Param.mk "uint256".toList none,
        Param.mk "address".toList none]) = true ∧
    getSigType (Param.mk ("tuple".toList ++ "[]".toList)
        (some [Param.mk "uint256".toList none, Param.mk "address".toList none]))
      = "(uint256,address)[]".toList ∧
    getSigType (Param.mk ("tuple".toList ++ []) none) = "()".toList :=
  ⟨by decide,
    (getSigType_tuple "[]".toList
      (some [Param.mk "uint256".toList none, Param.mk "address".toList none])
      (by decide)).trans (by decide),
    (getSigType_tuple [] none (by decide)).trans (by decide)⟩

/-! ## Association lists -/

section AssocList
variable {α : Type}

theorem get_set (k k' : Str) (v : α) (t : List (Str × α)) :
    getProp k' (setProp k v t) = if k = k' then some v else getProp k' t := by
  induction t with
  | nil => simp [setProp, getProp]
  | cons p t ih =>
    obtain ⟨a, b⟩ := p
    by_cases h : a = k
    · subst h
      by_cases h2 : a = k' <;> simp [setProp, getProp, h2]
    · by_cases h2 : a = k'
      · subst h2
        have : ¬ k = a := fun e => h e.symm
        simp [setProp, getProp, h, this]
      · simp [setProp, getProp, h, h2, ih]

theorem get_set_self (k : Str) (v : α) (t : List (Str × α)) : getProp k (setProp k v t) = some v := by
  simp [get_set]

theorem get_set_of_ne (k k' : Str) (v : α) (t : List (Str × α)) (h : k ≠ k') :
    getProp k' (setProp k v t) = getProp k' t := by
  simp [get_set, h]

theorem keys_nil : keys ([] : List (Str × α)) = [] := rfl

theorem keys_cons (a : Str) (b : α) (t : List (Str × α)) : keys ((a, b) :: t) = a :: keys t := rfl

theorem keys_append (s t : List (Str × α)) : keys (s ++ t) = keys s ++ keys t :=
  List.map_append _ _ _

theorem get_eq_none_iff (k : Str) (t : List (Str × α)) : getProp k t = none ↔ k ∉ keys t := by
  induction t with
  | nil => simp [getProp, keys_nil]
  | cons p t ih =>
    obtain ⟨a, b⟩ := p
    by_cases h : a = k
    · subst h; simp [getProp, keys_cons]
    · have h' : ¬ k = a := fun e => h e.symm
      simpa [getProp, keys_cons, h, h'] using ih

theorem get_isSome_iff (k : Str) (t : List (Str × α)) : (getProp k t).isSome ↔ k ∈ keys t := by
  rw [← not_iff_not, ← get_eq_none_iff]
  cases getProp k t <;> simp

theorem mem_keys_iff_get (k : Str) (t : List (Str × α)) : k ∈ keys t ↔ ∃ v, getProp k t = some v := by
  rw [← get_isSome_iff, Option.isSome_iff_exists]

theorem keys_set (k : Str) (v : α) (t : List (Str × α)) :
    keys (setProp k v t) = if k ∈ keys t then keys t else keys t ++ [k] := by
  induction t with
  | nil => simp [setProp, keys_nil, keys_cons]
  | cons p t ih =>
    obtain ⟨a, b⟩ := p
    by_cases h : a = k
    · subst h; simp [setProp, keys_cons]
    · have h' : ¬ k = a := fun e => h e.symm
      simp only [setProp, h, if_false, keys_cons, ih, List.mem_cons, h', false_or]
      split <;> simp

theorem mem_keys_set (x k : Str) (v : α) (t : List (Str × α)) :
    x ∈ keys (setProp k v t) ↔ x = k ∨ x ∈ keys t := by
  rw [keys_set]
  split
  · constructor
    · exact Or.inr
    · rintro (h | h)
      · subst h; assumption
      · exact h
  · simp [or_comm]

theorem nodup_keys_set (k : Str) (v : α) (t : List (Str × α)) (h : (keys t).Nodup) :
    (keys (setProp k v t)).Nodup := by
  rw [keys_set]
  split
  · exact h
  · rename_i hk
    exact List.Nodup.append h (List.nodup_singleton k) (by simpa using hk)

end AssocList

/-! ## The member index (C1, C9) -/

theorem members_append (abi : List AbiMember) (el : AbiMember) :
    members (abi ++ [el]) = setProp (sigKey el) el.toObj (members abi) := by
  simp [members, List.foldl_append]

theorem mem_keys_members (abi : List AbiMember) (k : Str) :
    k ∈ keys (members abi) ↔ ∃ el ∈ abi, sigKey el = k := by
  induction abi using List.reverseRecOn with
  | nil => simp [members, keys_nil]
  | append_singleton abi el ih =>
    rw [members_append, mem_keys_set, ih]
    constructor
    · rintro (h | ⟨e, he, hk⟩)
      · exact ⟨el, by simp, h.symm⟩
      · exact ⟨e, by simp [he], hk⟩
    · rintro ⟨e, he, hk⟩
      rcases List.mem_append.1 he with h | h
      · exact Or.inr ⟨e, h, hk⟩
      · simp at h; subst h; exact Or.inl hk.symm

theorem nodup_keys_members (abi : List AbiMember) : (keys (members abi)).Nodup := by
  induction abi using List.reverseRecOn with
  | nil => simp [members, keys_nil]
  | append_singleton abi el ih =>
    rw [members_append]; exact nodup_keys_set _ _ _ ih

theorem get_members_last (abi : List AbiMember) (s : Str) (h : s ∈ keys (members abi)) :
    ∃ pre el post, abi = pre ++ el :: post ∧ sigKey el = s ∧ (∀ e ∈ post, sigKey e ≠ s) ∧
      getProp s (members abi) = some el.toObj := by
  induction abi using List.reverseRecOn with
  | nil => simp [members, keys_nil] at h
  | append_singleton abi el ih =>
    rw [members_append] at h ⊢
    by_cases hk : sigKey el = s
    · exact ⟨abi, el, [], rfl, hk, by simp, by rw [hk, get_set_self]⟩
    · have hs : s ∈ keys (members abi) := by
        rcases (mem_keys_set _ _ _ _).1 h with h1 | h1
        · exact absurd h1.symm hk
        · exact h1
      obtain ⟨pre, e, post, hab, hse, hpost, hget⟩ := ih hs
      refine ⟨pre, e, post ++ [el], by simp [hab], hse, ?_, ?_⟩
      · intro x hx
        rcases List.mem_append.1 hx with h1 | h1
        · exact hpost x h1
        · simp at h1; subst h1; exact hk
      · rw [get_set_of_ne _ _ _ _ hk, hget]

theorem resolvedName_of_name (el : AbiMember) (n : Str) (h : el.name = some n) (hn : n ≠ []) :
    resolvedName el = n := by
  simp [resolvedName, h, hn]

theorem resolvedName_of_no_name (el : AbiMember) (h : el.name = none ∨ el.name = some []) :
    resolvedName el = el.type := by
  rcases h with h | h <;> simp [resolvedName, h]

/-- C1. For every member `el` of an ABI, the member index holds the key made of
the name `N`, an opening parenthesis, the derived types of `el.inputs` (none
when absent) in declared order joined by commas, and a closing parenthesis,
where `N` is `el.name` when `el` has a name and `el.type` otherwise (an empty
name is no name: `el.name || el.type`); every key of the index has this form
for some member; and the ABI with the single function `get` taking a tuple of
`uint256` and `address` yields exactly the key `get((uint256,address))`. -/
theorem members_keys (abi : List AbiMember) :
    (∀ el ∈ abi, ∃ N : Str,
        (∀ n, el.name = some n → n ≠ [] → N = n) ∧
        (el.name = none ∨ el.name = some [] → N = el.type) ∧
        N ++ "(".toList ++ join ",".toList ((el.inputs.getD []).map getSigType) ++ ")".toList
          ∈ keys (members abi)) ∧
    (∀ k ∈ keys (members abi), ∃ el ∈ abi, ∃ N : Str,
        (∀ n, el.name = some n → n ≠ [] → N = n) ∧
        (el.name = none ∨ el.name = some [] → N = el.type) ∧
        k = N ++ "(".toList ++ join ",".toList ((el.inputs.getD []).map getSigType)
              ++ ")".toList) ∧
    keys (members getterAbi) = ["get((uint256,address))".toList] := by
  refine ⟨?_, ?_, by decide⟩
  · intro el hel
    exact ⟨resolvedName el, resolvedName_of_name el, resolvedName_of_no_name el,
      (mem_keys_members abi _).2 ⟨el, hel, rfl⟩⟩
  · intro k hk
    obtain ⟨el, hel, hke⟩ := (mem_keys_members abi k).1 hk
    exact ⟨el, hel, resolvedName el, resolvedName_of_name el, resolvedName_of_no_name el,
      hke.symm⟩

/-- C1 at an ABI with a constructor taking a `uint256` and a fallback: the keys
are `constructor(uint256)` and `fallback()`. -/
theorem members_keys_witness :
    keys (members
      [{ type := "constructor".toList, name := none,
         inputs := some [Param.mk "uint256".toList none], rest := [] },
       { type := "fallback".toList, name := none, inputs := none, rest := [] }])
      = ["constructor(uint256)".toList, "fallback()".toList] ∧
    ∀ k ∈ keys (members
      [{ type := "constructor".toList, name := none,
         inputs := some [Param.mk "uint256".toList none], rest := [] },
       { type := "fallback".toList, name := none, inputs := none, rest := [] }]),
      ∃ el ∈ ([{ type := "constructor".toList, name := none,
                 inputs := some [Param.mk "uint256".toList none], rest := [] },
               { type := "fallback".toList, name := none, inputs := none, rest := [] }] :
               List AbiMember),
        ∃ N : Str,
          (∀ n, el.name = some n → n ≠ [] → N = n) ∧
          (el.name = none ∨ el.name = some [] → N = el.type) ∧
          k = N ++ "(".toList ++ join ",".toList ((el.inputs.getD []).map getSigType)
                ++ ")".toList :=
  ⟨by decide, (members_keys _).2.1⟩

/-- C9. For every ABI array, the keys of the member index are pairwise
distinct, and the record stored at a key `s` of the index is the last member of
the array, in array order, whose signature key is `s`: earlier members with the
same key are dropped (the index is a total function of the array, no error is
raised). -/
theorem members_last_wins (abi : List AbiMember) :
    (keys (members abi)).Nodup ∧
    ∀ s ∈ keys (members abi), ∃ pre el post,
      abi = pre ++ el :: post ∧ sigKey el = s ∧ (∀ e ∈ post, sigKey e ≠ s) ∧
        getProp s (members abi) = some el.toObj :=
  ⟨nodup_keys_members abi, get_members_last abi⟩

/-- C9 at `collidingAbi`, two members of key `f()`: the index keeps the
second (`stateMutability` is `pure`). -/
theorem members_last_wins_witness :
    "f()".toList ∈ keys (members collidingAbi) ∧
    (∃ pre el post, collidingAbi = pre ++ el :: post ∧ sigKey el = "f()".toList ∧
      (∀ e ∈ post, sigKey e ≠ "f()".toList) ∧
      getProp "f()".toList (members collidingAbi) = some el.toObj) ∧
    getProp "f()".toList (members collidingAbi)
      = some [("type".toList, JVal.str "function".toList),
          ("name".toList, JVal.str "f".toList),
          ("inputs".toList, JVal.params []),
          ("stateMutability".toList, JVal.str "pure".toList)] :=
  ⟨by decide, (members_last_wins collidingAbi).2 "f()".toList (by decide), rfl⟩

/-! ## `Object.assign` -/

theorem assign_nil (t : Obj) : assign t [] = t := rfl

theorem assign_cons (t : Obj) (p : Str × JVal) (r : Obj) :
    assign t (p :: r) = assign (setProp p.1 p.2 t) r := rfl

theorem assign_append (t a b : Obj) : assign t (a ++ b) = assign (assign t a) b := by
  simp [assign, List.foldl_append]

theorem lastOr_cons (k : Str) (x : JVal) (p : Str × JVal) (r : Obj) :
    lastOr k x (p :: r) = lastOr k (if p.1 = k then p.2 else x) r := rfl

theorem lastOr_absorb (k : Str) (r : Obj) (x y : JVal) :
    lastOr k x r = lastOr k y r ∨ (lastOr k x r = x ∧ lastOr k y r = y) := by
  induction r generalizing x y with
  | nil => exact Or.inr ⟨rfl, rfl⟩
  | cons p r ih =>
    rw [lastOr_cons, lastOr_cons]
    by_cases h : p.1 = k
    · simp [h]
    · simpa [h] using ih x y

theorem lastOr_idem (k : Str) (r : Obj) (x : JVal) :
    lastOr k (lastOr k x r) r = lastOr k x r := by
  rcases lastOr_absorb k r (lastOr k x r) x with h | h
  · exact h
  · exact h.1

theorem assign_cons_target (k : Str) (x : JVal) (t r : Obj) :
    assign ((k, x) :: t) r
      = (k, lastOr k x r) :: assign t (r.filter fun p => decide (p.1 ≠ k)) := by
  induction r generalizing x t with
  | nil => rfl
  | cons p r ih =>
    obtain ⟨a, v⟩ := p
    rw [assign_cons, lastOr_cons]
    by_cases h : k = a
    · subst h
      simp only [setProp, if_true, ih]
      simp
    · have h' : ¬ a = k := fun e => h e.symm
      simp only [setProp, h, if_false, ih, h']
      simp [h', assign_cons]

theorem assign_idem_nil (n : Nat) (r : Obj) (h : r.length ≤ n) :
    assign (assign [] r) r = assign [] r := by
  induction n generalizing r with
  | zero =>
    have : r = [] := List.length_eq_zero.1 (Nat.le_zero.1 h)
    subst this; rfl
  | succ n ih =>
    cases r with
    | nil => rfl
    | cons p r =>
      obtain ⟨a, v⟩ := p
      have e : assign [] ((a, v) :: r) = assign [(a, v)] r := rfl
      rw [e, assign_cons_target, assign_cons_target]
      have hf : (((a, v) :: r).filter fun p => decide (p.1 ≠ a))
          = r.filter fun p => decide (p.1 ≠ a) := by simp
      rw [hf, ih _ (le_trans (List.length_filter_le _ _) (by simpa using h))]
      have hl : lastOr a (lastOr a v r) ((a, v) :: r) = lastOr a v r := by
        rw [lastOr_cons]; simp
      rw [hl]

theorem assign_idem (t r : Obj) : assign (assign t r) r = assign t r := by
  induction t generalizing r with
  | nil => exact assign_idem_nil r.length r (le_refl _)
  | cons p t ih =>
    obtain ⟨k, x⟩ := p
    rw [assign_cons_target, assign_cons_target, lastOr_idem, ih]

theorem keys_assign_cons (t r : Obj) (p : Str × JVal) :
    keys (assign (p :: t) r) = p.1 :: keys (assign t (r.filter fun q => decide (q.1 ≠ p.1))) := by
  obtain ⟨k, x⟩ := p
  rw [assign_cons_target]; rfl

theorem getProp_assign_single (f k : Str) (v : JVal) (r : Obj) :
    getProp f (assign r [(k, v)]) = if k = f then some v else getProp f r := by
  rw [assign_cons, assign_nil, get_set]

/-! ## Sequences of `Object.assign` calls on the index -/

theorem assignAt_nil (sig : Str) (srcs : List Obj) : assignAt sig srcs [] = [] := rfl

theorem assignAt_cons (sig : Str) (srcs : List Obj) (k : Str) (r : Obj) (t : Index) :
    assignAt sig srcs ((k, r) :: t)
      = if k = sig then (k, srcs.foldl assign r) :: t else (k, r) :: assignAt sig srcs t := by
  by_cases h : k = sig
  · subst h; simp [assignAt, getProp, setProp]
  · simp only [assignAt, getProp, h, if_false]
    cases getProp sig t <;> simp [setProp, h]

theorem assignAt_two (sig : Str) (a b : Obj) (idx : Index) :
    assignAt sig [a, b] idx = assignAt sig [a ++ b] idx := by
  simp [assignAt, assign_append]

theorem assignSeq_nil (idx : Index) : assignSeq [] idx = idx := rfl

theorem assignSeq_cons (p : Str × Obj) (calls : List (Str × Obj)) (idx : Index) :
    assignSeq (p :: calls) idx = assignSeq calls (assignAt p.1 [p.2] idx) := rfl

theorem assignSeq_append (a b : List (Str × Obj)) (idx : Index) :
    assignSeq (a ++ b) idx = assignSeq b (assignSeq a idx) := by
  simp [assignSeq, List.foldl_append]

theorem assignSeq_empty (calls : List (Str × Obj)) : assignSeq calls [] = [] := by
  induction calls with
  | nil => rfl
  | cons p calls ih => rw [assignSeq_cons, assignAt_nil, ih]

theorem srcFor_append (s : Str) (a b : List (Str × Obj)) :
    srcFor s (a ++ b) = srcFor s a ++ srcFor s b := by
  induction a with
  | nil => rfl
  | cons p a ih =>
    obtain ⟨k, src⟩ := p
    simp [srcFor, ih]

theorem srcFor_filter_ne (s k : Str) (calls : List (Str × Obj)) (h : k ≠ s) :
    srcFor s (calls.filter fun p => decide (p.1 ≠ k)) = srcFor s calls := by
  induction calls with
  | nil => rfl
  | cons p calls ih =>
    obtain ⟨a, src⟩ := p
    by_cases ha : a = k
    · subst ha
      simp only [List.filter, ne_eq, not_true_eq_false, decide_False, srcFor, h, if_false,
        List.nil_append]
      exact ih
    · simp only [List.filter, ne_eq, ha, not_false_eq_true, decide_True, srcFor, ih]

theorem assignSeq_cons_index (calls : List (Str × Obj)) (k : Str) (r : Obj) (t : Index) :
    assignSeq calls ((k, r) :: t)
      = (k, assign r (srcFor k calls))
          :: assignSeq (calls.filter fun p => decide (p.1 ≠ k)) t := by
  induction calls generalizing r t with
  | nil => rfl
  | cons p calls ih =>
    obtain ⟨sig, src⟩ := p
    rw [assignSeq_cons, assignAt_cons]
    by_cases h : k = sig
    · subst h
      simp only [if_true, ih, srcFor, List.foldl, assign_append]
      simp
    · have h' : ¬ sig = k := fun e => h e.symm
      simp only [h, if_false, ih, srcFor, h', List.nil_append]
      simp [h', assignSeq_cons]

theorem keys_assignSeq (calls : List (Str × Obj)) (idx : Index) :
    keys (assignSeq calls idx) = keys idx := by
  induction idx generalizing calls with
  | nil => rw [assignSeq_empty]
  | cons p idx ih =>
    obtain ⟨k, r⟩ := p
    rw [assignSeq_cons_index, keys_cons, keys_cons, ih]

theorem getProp_assignSeq (calls : List (Str × Obj)) (idx : Index) (s : Str) :
    getProp s (assignSeq calls idx) = (getProp s idx).map fun r => assign r (srcFor s calls) := by
  induction idx generalizing calls with
  | nil => rw [assignSeq_empty]; rfl
  | cons p idx ih =>
    obtain ⟨k, r⟩ := p
    rw [assignSeq_cons_index]
    by_cases h : k = s
    · subst h; simp [getProp]
    · simp only [getProp, h, if_false, ih, srcFor_filter_ne s k calls h]

theorem assignSeq_idem (calls : List (Str × Obj)) (idx : Index) :
    assignSeq calls (assignSeq calls idx) = assignSeq calls idx := by
  induction idx generalizing calls with
  | nil => rw [assignSeq_empty, assignSeq_empty]
  | cons p idx ih =>
    obtain ⟨k, r⟩ := p
    rw [assignSeq_cons_index, assignSeq_cons_index, assign_idem, ih]
/-! ## The annotation merge as a sequence of calls (C4, C7) -/

theorem mergeMap_eq (m : Option DocMap) (idx : Index) :
    mergeMap m idx = assignSeq (mapCalls m) idx := by
  simp [mergeMap, assignSeq, mapCalls, List.foldl_map]

theorem mergeStateVariables_eq (m : Option DocMap) (idx : Index) :
    mergeStateVariables m idx = assignSeq (stateVariableCalls m) idx := by
  simp [mergeStateVariables, assignSeq, stateVariableCalls, List.foldl_map, assignAt_two]

theorem mergeDocs_eq (devdoc : DevDoc) (userdoc : UserDoc) (idx : Index) :
    mergeDocs devdoc userdoc idx = assignSeq (docCalls devdoc userdoc) idx := by
  simp [mergeDocs, docCalls, mergeMap_eq, mergeStateVariables_eq, assignSeq_append]

theorem keys_mergeDocs (devdoc : DevDoc) (userdoc : UserDoc) (idx : Index) :
    keys (mergeDocs devdoc userdoc idx) = keys idx := by
  rw [mergeDocs_eq, keys_assignSeq]

theorem srcFor_map_of_ne (s : Str) (f : Str → Str) (g : Str → Obj) (ks : List Str)
    (h : ∀ k ∈ ks, f k ≠ s) : srcFor s (ks.map fun k => (f k, g k)) = [] := by
  induction ks with
  | nil => rfl
  | cons k ks ih =>
    have h1 : f k ≠ s := h k (List.mem_cons_self _ _)
    have h2 := ih fun x hx => h x (List.mem_cons_of_mem _ hx)
    simp [srcFor, h1, h2]

theorem assign_srcFor_map (f : Str → Str) (g : Str → Obj) (hf : Function.Injective f)
    (ks : List Str) (k0 : Str) (r : Obj) :
    assign r (srcFor (f k0) (ks.map fun k => (f k, g k)))
      = if k0 ∈ ks then assign r (g k0) else r := by
  induction ks generalizing r with
  | nil => rfl
  | cons k ks ih =>
    simp only [List.map_cons, srcFor, assign_append, ih]
    by_cases h : k = k0
    · subst h
      simp only [if_true, List.mem_cons, true_or]
      split
      · exact assign_idem r (g k)
      · rfl
    · have h1 : ¬ f k = f k0 := fun e => h (hf e)
      have h2 : ¬ k0 = k := fun e => h e.symm
      simp [h1, h2, assign_nil]

theorem assign_srcFor_mapCalls (m : Option DocMap) (s : Str) (r : Obj) :
    assign r (srcFor s (mapCalls m)) = overlay m s r := by
  have h := assign_srcFor_map id (fun sig => (getProp sig (m.getD [])).getD [])
    Function.injective_id (keys (m.getD [])) s r
  simp only [id] at h
  rw [mapCalls, h, overlay]
  by_cases hs : s ∈ keys (m.getD [])
  · obtain ⟨d, hd⟩ := (mem_keys_iff_get s _).1 hs
    simp [hs, hd]
  · have hn := (get_eq_none_iff s _).2 hs
    simp [hs, hn]

theorem append_parens_injective : Function.Injective fun name : Str => name ++ "()".toList := by
  intro a b h
  exact List.append_cancel_right h

theorem assign_srcFor_stateVariableCalls (m : Option DocMap) (name : Str) (d r : Obj)
    (h : getProp name (m.getD []) = some d) :
    assign r (srcFor (name ++ "()".toList) (stateVariableCalls m))
      = assign (assign r d) stateVariableStamp := by
  have hk : name ∈ keys (m.getD []) := (mem_keys_iff_get name _).2 ⟨d, h⟩
  have e := assign_srcFor_map (fun n => n ++ "()".toList)
    (fun n => (getProp n (m.getD [])).getD [] ++ stateVariableStamp)
    append_parens_injective (keys (m.getD [])) name r
  simp only at e
  rw [stateVariableCalls, e]
  simp [hk, h, assign_append]

theorem srcFor_stateVariableCalls_of_ne (m : Option DocMap) (s : Str)
    (h : ∀ name ∈ keys (m.getD []), s ≠ name ++ "()".toList) :
    srcFor s (stateVariableCalls m) = [] :=
  srcFor_map_of_ne s _ _ _ fun k hk e => h k hk e.symm

theorem getProp_mergeDocs (devdoc : DevDoc) (userdoc : UserDoc) (idx : Index) (s : Str) :
    getProp s (mergeDocs devdoc userdoc idx)
      = (getProp s idx).map fun r =>
          overlay userdoc.methods s (overlay userdoc.events s (overlay devdoc.methods s
            (assign (overlay devdoc.events s r)
              (srcFor s (stateVariableCalls devdoc.stateVariables))))) := by
  rw [mergeDocs_eq, getProp_assignSeq]
  congr 1
  funext r
  simp only [docCalls, srcFor_append, assign_append, assign_srcFor_mapCalls]

/-- C4. For every ABI, devdoc and userdoc and every signature key `s` of the
member index, the merged record at `s` is the ABI member at `s` (`r0`)
overlaid, in this order, by `devdoc.events[s]` (`r1`), then, when `s` is a key
`name` of `devdoc.stateVariables` followed by `()`, by
`devdoc.stateVariables[name]` and the stamp `type = "stateVariable"` (`r2`),
then by `devdoc.methods[s]` (`r3`), `userdoc.events[s]` (`r4`) and
`userdoc.methods[s]` (`r5`); each overlay is skipped when the map has no entry,
and a later write to a field name replaces the earlier value. -/
theorem mergeDocs_record (abi : List AbiMember) (devdoc : DevDoc) (userdoc : UserDoc)
    (s : Str) (hs : s ∈ keys (members abi)) :
    ∃ r0 r1 r2 r3 r4 r5 : Obj,
      getProp s (members abi) = some r0 ∧
      r1 = overlay devdoc.events s r0 ∧
      (∀ name d, getProp name (devdoc.stateVariables.getD []) = some d →
        s = name ++ "()".toList → r2 = assign (assign r1 d) stateVariableStamp) ∧
      ((∀ name ∈ keys (devdoc.stateVariables.getD []), s ≠ name ++ "()".toList) → r2 = r1) ∧
      r3 = overlay devdoc.methods s r2 ∧
      r4 = overlay userdoc.events s r3 ∧
      r5 = overlay userdoc.methods s r4 ∧
      getProp s (mergeDocs devdoc userdoc (members abi)) = some r5 := by
  obtain ⟨r0, h0⟩ := (mem_keys_iff_get s _).1 hs
  refine ⟨r0, _, assign (overlay devdoc.events s r0)
    (srcFor s (stateVariableCalls devdoc.stateVariables)), _, _, _, h0, rfl, ?_, ?_,
    rfl, rfl, rfl, ?_⟩
  · intro name d hd hsn
    subst hsn
    exact assign_srcFor_stateVariableCalls _ name d _ hd
  · intro h
    rw [srcFor_stateVariableCalls_of_ne _ s h, assign_nil]
  · rw [getProp_mergeDocs, h0]; rfl

/-- C7. Merging is idempotent: for every member index, devdoc and userdoc,
applying the five-step annotation merge a second time, with the same devdoc
and userdoc, to the already-merged index yields exactly the index obtained
after the first merge. -/
theorem mergeDocs_idempotent (devdoc : DevDoc) (userdoc : UserDoc) (idx : Index) :
    mergeDocs devdoc userdoc (mergeDocs devdoc userdoc idx) = mergeDocs devdoc userdoc idx := by
  rw [mergeDocs_eq, mergeDocs_eq, assignSeq_idem]
/-! ## Grouping by type (C10) -/

theorem getProp_groupInto (idx : Index) (acc : List (Str × Index)) (sig T s : Str) :
    (getProp T (groupInto idx acc sig)).bind (getProp s)
      = match getProp sig idx with
        | some r =>
          if typeKey r = T ∧ sig = s then some r else (getProp T acc).bind (getProp s)
        | none => (getProp T acc).bind (getProp s) := by
  unfold groupInto
  cases h : getProp sig idx with
  | none => rfl
  | some r =>
    simp only [get_set]
    by_cases hT : typeKey r = T
    · subst hT
      simp only [if_true, Option.bind_some, true_and]
      by_cases hs : sig = s
      · subst hs
        rw [Option.some_bind, get_set_self]; simp
      · rw [Option.some_bind, get_set_of_ne _ _ _ _ hs]
        simp only [hs, if_false]
        cases getProp (typeKey r) acc <;> rfl
    · simp [hT]

theorem getProp_groupFold (idx : Index) (ks : List Str) (T s : Str) :
    (getProp T (ks.foldl (groupInto idx) [])).bind (getProp s)
      = if s ∈ ks then (getProp s idx).filter (fun r => decide (typeKey r = T)) else none := by
  induction ks using List.reverseRecOn with
  | nil => simp [getProp]
  | append_singleton ks sig ih =>
    rw [List.foldl_append, List.foldl_cons, List.foldl_nil, getProp_groupInto, ih]
    cases h : getProp sig idx with
    | none =>
      by_cases hs : s = sig
      · subst hs; simp [h]
      · simp [hs]
    | some r =>
      by_cases hs : s = sig
      · subst hs
        by_cases hT : typeKey r = T
        · simp [h, hT, Option.filter]
        · simp [h, hT, Option.filter]
      · have hs' : ¬ sig = s := fun e => hs e.symm
        simp [hs, hs']

theorem getProp_membersByType (idx : Index) (T s : Str) :
    (getProp T (membersByType idx)).bind (getProp s)
      = (getProp s idx).filter (fun r => decide (typeKey r = T)) := by
  rw [membersByType, getProp_groupFold]
  by_cases h : s ∈ keys idx
  · simp [h]
  · simp [h, (get_eq_none_iff s idx).2 h]

theorem getProp_group (idx : Index) (T s : Str) :
    getProp s ((getProp T (membersByType idx)).getD [])
      = (getProp s idx).filter (fun r => decide (typeKey r = T)) := by
  rw [← getProp_membersByType]
  cases getProp T (membersByType idx) <;> rfl

theorem mem_groupKeys (idx : Index) (T s : Str) :
    s ∈ groupKeys (getProp T (membersByType idx))
      ↔ ∃ r, getProp s idx = some r ∧ typeKey r = T := by
  rw [groupKeys, mem_keys_iff_get]
  simp only [getProp_group]
  cases h : getProp s idx with
  | none =>
    constructor
    · rintro ⟨v, hv⟩; cases hv
    · rintro ⟨r, hr, _⟩; cases hr
  | some r =>
    by_cases hT : typeKey r = T
    · constructor
      · intro _; exact ⟨r, rfl, hT⟩
      · intro _; exact ⟨r, by simp [Option.filter, hT]⟩
    · constructor
      · rintro ⟨v, hv⟩
        simp [Option.filter, hT] at hv
      · rintro ⟨r', hr', hT'⟩
        cases hr'
        exact absurd hT' hT

theorem getProp_group_of_mem (idx : Index) (T s : Str)
    (h : s ∈ groupKeys (getProp T (membersByType idx))) :
    getProp s ((getProp T (membersByType idx)).getD []) = getProp s idx := by
  obtain ⟨r, hr, hT⟩ := (mem_groupKeys idx T s).1 h
  rw [getProp_group, hr]
  simp [Option.filter, hT]

theorem not_mem_two_groups (idx : Index) (T U s : Str) (hTU : T ≠ U) :
    ¬ (s ∈ groupKeys (getProp T (membersByType idx))
        ∧ s ∈ groupKeys (getProp U (membersByType idx))) := by
  rintro ⟨h1, h2⟩
  obtain ⟨r, hr, hT⟩ := (mem_groupKeys idx T s).1 h1
  obtain ⟨r', hr', hU⟩ := (mem_groupKeys idx U s).1 h2
  rw [hr] at hr'
  cases hr'
  exact hTU (hT.symm.trans hU)

theorem typeKey_of_str (r : Obj) (t : Str) (h : getProp "type".toList r = some (JVal.str t)) :
    typeKey r = t := by
  rw [typeKey, h]; rfl

/-- C10. The grouping partitions a merged member index by the type field (the
field as `acc[type]` reads it, `typeKey`; for a string it is the string
itself): a signature key `s` is a key of the methods group iff the merged
record at `s` has type `function`, of the events group iff it has type
`event`, of the stateVariables group iff it has type `stateVariable`; the
value a group stores at `s` is the merged record at `s`; no key occurs in two
groups; and these are the three groups of the output record. -/
theorem groups_partition (idx : Index) (s : Str) :
    (s ∈ groupKeys (getProp "function".toList (membersByType idx))
        ↔ ∃ r, getProp s idx = some r ∧ typeKey r = "function".toList) ∧
    (s ∈ groupKeys (getProp "event".toList (membersByType idx))
        ↔ ∃ r, getProp s idx = some r ∧ typeKey r = "event".toList) ∧
    (s ∈ groupKeys (getProp "stateVariable".toList (membersByType idx))
        ↔ ∃ r, getProp s idx = some r ∧ typeKey r = "stateVariable".toList) ∧
    (s ∈ groupKeys (getProp "function".toList (membersByType idx)) →
        getProp s ((getProp "function".toList (membersByType idx)).getD [])
          = getProp s idx) ∧
    (s ∈ groupKeys (getProp "event".toList (membersByType idx)) →
        getProp s ((getProp "event".toList (membersByType idx)).getD [])
          = getProp s idx) ∧
    (s ∈ groupKeys (getProp "stateVariable".toList (membersByType idx)) →
        getProp s ((getProp "stateVariable".toList (membersByType idx)).getD [])
          = getProp s idx) ∧
    ¬ (s ∈ groupKeys (getProp "function".toList (membersByType idx))
        ∧ s ∈ groupKeys (getProp "event".toList (membersByType idx))) ∧
    ¬ (s ∈ groupKeys (getProp "function".toList (membersByType idx))
        ∧ s ∈ groupKeys (getProp "stateVariable".toList (membersByType idx))) ∧
    ¬ (s ∈ groupKeys (getProp "event".toList (membersByType idx))
        ∧ s ∈ groupKeys (getProp "stateVariable".toList (membersByType idx))) ∧
    (∀ (r : Obj) (t : Str), getProp "type".toList r = some (JVal.str t) → typeKey r = t) ∧
    (∀ contractName abi devdoc userdoc,
      (contractDoc contractName abi devdoc userdoc).methods
          = getProp "function".toList (membersByType (mergedIndex abi devdoc userdoc)) ∧
      (contractDoc contractName abi devdoc userdoc).events
          = getProp "event".toList (membersByType (mergedIndex abi devdoc userdoc)) ∧
      (contractDoc contractName abi devdoc userdoc).stateVariables
          = getProp "stateVariable".toList (membersByType (mergedIndex abi devdoc userdoc))) :=
  ⟨mem_groupKeys idx _ s, mem_groupKeys idx _ s, mem_groupKeys idx _ s,
    getProp_group_of_mem idx _ s, getProp_group_of_mem idx _ s, getProp_group_of_mem idx _ s,
    not_mem_two_groups idx _ _ s (by decide), not_mem_two_groups idx _ _ s (by decide),
    not_mem_two_groups idx _ _ s (by decide),
    typeKey_of_str, fun _ _ _ _ => ⟨rfl, rfl, rfl⟩⟩

/-! ## Annotations and the output groups (C5, C6) -/

theorem assignAt_of_miss (sig : Str) (srcs : List Obj) (idx : Index)
    (h : getProp sig idx = none) : assignAt sig srcs idx = idx := by
  simp [assignAt, h]

theorem keys_mergedIndex (abi : List AbiMember) (devdoc : Option DevDoc)
    (userdoc : Option UserDoc) : keys (mergedIndex abi devdoc userdoc) = keys (members abi) :=
  keys_mergeDocs _ _ _

theorem mem_keys_of_mem_groupKeys (idx : Index) (T k : Str)
    (h : k ∈ groupKeys (getProp T (membersByType idx))) : k ∈ keys idx := by
  obtain ⟨r, hr, _⟩ := (mem_groupKeys idx T k).1 h
  exact (mem_keys_iff_get k idx).2 ⟨r, hr⟩

theorem mem_members_of_mem_group (contractName : Str) (abi : List AbiMember)
    (devdoc : Option DevDoc) (userdoc : Option UserDoc) (k : Str)
    (h : k ∈ groupKeys (contractDoc contractName abi devdoc userdoc).events
      ∨ k ∈ groupKeys (contractDoc contractName abi devdoc userdoc).stateVariables
      ∨ k ∈ groupKeys (contractDoc contractName abi devdoc userdoc).methods) :
    k ∈ keys (members abi) := by
  rw [← keys_mergedIndex abi devdoc userdoc]
  rcases h with h | h | h <;> exact mem_keys_of_mem_groupKeys _ _ k h

/-- C6. A lookup miss is no failure: `Object.assign(members[sig] || {}, ...)`
leaves the index as it is when it has no record at `sig`.  Every key of the
events, stateVariables and methods groups of the output is a key of the member
index built from the ABI, hence the signature key of some ABI member; so a key
of a documentation map that is absent from the index is a key of none of the
three groups. -/
theorem groups_keys_from_abi (contractName : Str) (abi : List AbiMember)
    (devdoc : Option DevDoc) (userdoc : Option UserDoc) (k : Str) :
    (∀ (srcs : List Obj) (idx : Index), getProp k idx = none → assignAt k srcs idx = idx) ∧
    (k ∈ groupKeys (contractDoc contractName abi devdoc userdoc).events
        ∨ k ∈ groupKeys (contractDoc contractName abi devdoc userdoc).stateVariables
        ∨ k ∈ groupKeys (contractDoc contractName abi devdoc userdoc).methods →
      k ∈ keys (members abi) ∧ ∃ el ∈ abi, sigKey el = k) ∧
    (k ∉ keys (members abi) →
      k ∉ groupKeys (contractDoc contractName abi devdoc userdoc).events
        ∧ k ∉ groupKeys (contractDoc contractName abi devdoc userdoc).stateVariables
        ∧ k ∉ groupKeys (contractDoc contractName abi devdoc userdoc).methods) := by
  refine ⟨fun srcs idx h => assignAt_of_miss k srcs idx h, ?_, ?_⟩
  · intro h
    have hk := mem_members_of_mem_group contractName abi devdoc userdoc k h
    exact ⟨hk, (mem_keys_members abi k).1 hk⟩
  · intro hk
    exact ⟨fun h => hk (mem_members_of_mem_group contractName abi devdoc userdoc k (Or.inl h)),
      fun h => hk (mem_members_of_mem_group contractName abi devdoc userdoc k (Or.inr (Or.inl h))),
      fun h => hk (mem_members_of_mem_group contractName abi devdoc userdoc k (Or.inr (Or.inr h)))⟩

/-- C6 at `tokenAbi` and `tokenDevDoc`: the annotated method `gone()` is not
in the ABI and is a key of no group. -/
theorem groups_keys_from_abi_witness :
    "gone()".toList ∈ keys (tokenDevDoc.methods.getD []) ∧
    "gone()".toList ∉ keys (members tokenAbi) ∧
    "gone()".toList ∉ groupKeys
        (contractDoc "a.sol:T".toList tokenAbi (some tokenDevDoc) (some tokenUserDoc)).events ∧
    "gone()".toList ∉ groupKeys
        (contractDoc "a.sol:T".toList tokenAbi (some tokenDevDoc)
          (some tokenUserDoc)).stateVariables ∧
    "gone()".toList ∉ groupKeys
        (contractDoc "a.sol:T".toList tokenAbi (some tokenDevDoc) (some tokenUserDoc)).methods :=
  ⟨by decide, by decide,
    (groups_keys_from_abi "a.sol:T".toList tokenAbi (some tokenDevDoc) (some tokenUserDoc)
      "gone()".toList).2.2 (by decide)⟩

theorem overlay_none (s : Str) (r : Obj) : overlay none s r = r := rfl

theorem overlay_of_miss (m : Option DocMap) (s : Str) (r : Obj)
    (h : getProp s (m.getD []) = none) : overlay m s r = r := by
  simp [overlay, h]

theorem getProp_mergedIndex_balance (abi : List AbiMember) (userdoc : Option UserDoc)
    (he : getProp "balance()".toList ((userdoc.getD UserDoc.empty).events.getD []) = none)
    (hm : getProp "balance()".toList ((userdoc.getD UserDoc.empty).methods.getD []) = none) :
    getProp "balance()".toList (mergedIndex abi (some balanceDevDoc) userdoc)
      = (getProp "balance()".toList (members abi)).map fun r =>
          assign (assign r [("details".toList, JVal.str "token balance".toList)])
            stateVariableStamp := by
  rw [mergedIndex, getProp_mergeDocs]
  congr 1
  funext r
  rw [overlay_of_miss _ _ _ hm, overlay_of_miss _ _ _ he]
  have h := assign_srcFor_stateVariableCalls balanceDevDoc.stateVariables "balance".toList
    [("details".toList, JVal.str "token balance".toList)] r rfl
  exact h

/-- C5 as stated fails: with the devdoc `{stateVariables: {balance: {details:
"token balance"}}}` and the empty ABI, which has no member of key `balance()`,
the output has no stateVariables group at all. -/
theorem stateVariables_balance_counterexample :
    ¬ ∀ (contractName : Str) (abi : List AbiMember),
      (∀ el ∈ abi, sigKey el ≠ "balance()".toList) →
      ∃ r, getProp "balance()".toList
            ((contractDoc contractName abi (some balanceDevDoc) none).stateVariables.getD [])
              = some r ∧
        getProp "type".toList r = some (JVal.str "stateVariable".toList) ∧
        getProp "details".toList r = some (JVal.str "token balance".toList) := by
  intro h
  obtain ⟨r, hr, _⟩ := h [] [] (by simp)
  cases hr

/-- C5, amended. Given the devdoc `{stateVariables: {balance: {details: "token
balance"}}}`: when the ABI has no member whose signature key is `balance()`,
the stateVariables group of the output does not contain the key `balance()`;
when the ABI has such a member and the userdoc has no entry for `balance()`,
the group contains `balance()`, mapped to a record with type `stateVariable`
and details `token balance`. -/
theorem stateVariables_balance (contractName : Str) (abi : List AbiMember)
    (userdoc : Option UserDoc) :
    ((∀ el ∈ abi, sigKey el ≠ "balance()".toList) →
      "balance()".toList ∉ groupKeys
        (contractDoc contractName abi (some balanceDevDoc) userdoc).stateVariables) ∧
    ((∃ el ∈ abi, sigKey el = "balance()".toList) →
      getProp "balance()".toList ((userdoc.getD UserDoc.empty).events.getD []) = none →
      getProp "balance()".toList ((userdoc.getD UserDoc.empty).methods.getD []) = none →
      ∃ r, getProp "balance()".toList
            ((contractDoc contractName abi (some balanceDevDoc) userdoc).stateVariables.getD [])
              = some r ∧
        getProp "type".toList r = some (JVal.str "stateVariable".toList) ∧
        getProp "details".toList r = some (JVal.str "token balance".toList)) := by
  constructor
  · intro h hk
    have := mem_members_of_mem_group contractName abi (some balanceDevDoc) userdoc _
      (Or.inr (Or.inl hk))
    obtain ⟨el, hel, hs⟩ := (mem_keys_members abi _).1 this
    exact h el hel hs
  · intro hex he hm
    obtain ⟨r0, h0⟩ := (mem_keys_iff_get _ _).1 ((mem_keys_members abi _).2 hex)
    have hg := getProp_mergedIndex_balance abi userdoc he hm
    rw [h0] at hg
    have htype : getProp "type".toList
        (assign (assign r0 [("details".toList, JVal.str "token balance".toList)])
          stateVariableStamp) = some (JVal.str "stateVariable".toList) := by
      rw [stateVariableStamp, getProp_assign_single]; simp
    have hdet : getProp "details".toList
        (assign (assign r0 [("details".toList, JVal.str "token balance".toList)])
          stateVariableStamp) = some (JVal.str "token balance".toList) := by
      rw [stateVariableStamp, getProp_assign_single, getProp_assign_single]
      simp
    refine ⟨_, ?_, htype, hdet⟩
    have hmem : "balance()".toList ∈ groupKeys (getProp "stateVariable".toList
        (membersByType (mergedIndex abi (some balanceDevDoc) userdoc))) :=
      (mem_groupKeys _ _ _).2 ⟨_, hg, typeKey_of_str _ _ htype⟩
    have := getProp_group_of_mem _ _ _ hmem
    rw [hg] at this
    exact this

/-- C5, amended, at `tokenAbi`, which has the getter `balance()`, and at the
empty ABI, which has not. -/
theorem stateVariables_balance_witness :
    "balance()".toList ∉ groupKeys
        (contractDoc "a.sol:T".toList [] (some balanceDevDoc) none).stateVariables ∧
    ∃ r, getProp "balance()".toList
          ((contractDoc "a.sol:T".toList tokenAbi (some balanceDevDoc)
            (some tokenUserDoc)).stateVariables.getD []) = some r ∧
      getProp "type".toList r = some (JVal.str "stateVariable".toList) ∧
      getProp "details".toList r = some (JVal.str "token balance".toList) :=
  ⟨(stateVariables_balance "a.sol:T".toList [] none).1 (by simp),
    (stateVariables_balance "a.sol:T".toList tokenAbi (some tokenUserDoc)).2
      ⟨_, List.mem_cons_of_mem _ (List.mem_cons_self _ _), by decide⟩ rfl rfl⟩
/-! ## Injectivity of the signature key (C8) -/

theorem scanType_append (d : Nat) (a b : Str) :
    scanType d (a ++ b) = (scanType d a).bind fun e => scanType e b := by
  induction a generalizing d with
  | nil => rfl
  | cons c a ih =>
    simp only [List.cons_append, scanType]
    split
    · exact ih _
    · split
      · split
        · rfl
        · exact ih _
      · split
        · split
          · rfl
          · exact ih _
        · exact ih _

theorem scanParens_append (d : Nat) (a b : Str) :
    scanParens d (a ++ b) = (scanParens d a).bind fun e => scanParens e b := by
  induction a generalizing d with
  | nil => rfl
  | cons c a ih =>
    simp only [List.cons_append, scanParens]
    split
    · exact ih _
    · split
      · split
        · rfl
        · exact ih _
      · exact ih _

theorem scanParens_of_scanType (d e : Nat) (t : Str) (h : scanType d t = some e) :
    scanParens d t = some e := by
  induction t generalizing d with
  | nil => exact h
  | cons c t ih =>
    simp only [scanType] at h
    simp only [scanParens]
    split at h
    · rename_i h1; simp only [h1, if_true]; exact ih _ h
    · rename_i h1
      simp only [h1, if_false]
      split at h
      · rename_i h2
        simp only [h2, if_true]
        split at h
        · cases h
        · rename_i h3; simp only [h3, if_false]; exact ih _ h
      · rename_i h2
        simp only [h2, if_false]
        split at h
        · split at h
          · cases h
          · exact ih _ h
        · exact ih _ h

theorem scanParens_shift (d e k : Nat) (t : Str) (h : scanParens d t = some e) :
    scanParens (d + k) t = some (e + k) := by
  induction t generalizing d with
  | nil =>
    simp only [scanParens, Option.some.injEq] at h ⊢
    omega
  | cons c t ih =>
    simp only [scanParens] at h ⊢
    split at h
    · rename_i h1
      simp only [h1, if_true]
      have := ih _ h
      rwa [show d + 1 + k = d + k + 1 by omega] at this
    · rename_i h1
      simp only [h1, if_false]
      split at h
      · rename_i h2
        simp only [h2, if_true]
        split at h
        · cases h
        · rename_i h3
          have h4 : ¬ d + k = 0 := by omega
          simp only [h4, if_false]
          have := ih _ h
          rwa [show d - 1 + k = d + k - 1 by omega] at this
      · rename_i h2
        simp only [h2, if_false]
        exact ih _ h

theorem scanParens_join (ts : List Str) (h : ∀ t ∈ ts, scanType 0 t = some 0) :
    scanParens 0 (join ",".toList ts) = some 0 := by
  induction ts with
  | nil => rfl
  | cons t ts ih =>
    have ht := scanParens_of_scanType _ _ _ (h t (List.mem_cons_self _ _))
    cases ts with
    | nil => exact ht
    | cons u us =>
      have ih' := ih fun x hx => h x (List.mem_cons_of_mem _ hx)
      rw [join_cons_cons, List.append_assoc, scanParens_append, ht]
      simp only [Option.some_bind]
      have e : ",".toList ++ join ",".toList (u :: us) = ',' :: join ",".toList (u :: us) := rfl
      rw [e, scanParens]
      simpa using ih'

theorem wellFormedType_iff (t : Str) :
    wellFormedType t = true ↔ t ≠ [] ∧ scanType 0 t = some 0 := by
  cases t <;> simp [wellFormedType]

theorem scanType_comma_none (t r : Str) (h : scanType 0 t = some 0) :
    scanType 0 (t ++ ',' :: r) = none := by
  rw [scanType_append, h]
  simp [scanType]

theorem join_eq_nil (ts : List Str) (h : ∀ t ∈ ts, t ≠ []) (e : join ",".toList ts = []) :
    ts = [] := by
  cases ts with
  | nil => rfl
  | cons t ts =>
    exfalso
    have ht := h t (List.mem_cons_self _ _)
    cases ts with
    | nil => exact ht e
    | cons u us =>
      rw [join_cons_cons] at e
      exact ht (List.append_eq_nil.1 (List.append_eq_nil.1 e).1).1

theorem join_cons_eq (t : Str) (ts : List Str) :
    join ",".toList (t :: ts) = t ++ joinRest ts := by
  cases ts with
  | nil => simp [join, joinRest]
  | cons u us => rw [join_cons_cons, List.append_assoc]; rfl

theorem join_injective (ts us : List Str)
    (hts : ∀ t ∈ ts, wellFormedType t = true) (hus : ∀ t ∈ us, wellFormedType t = true)
    (e : join ",".toList ts = join ",".toList us) : ts = us := by
  induction ts generalizing us with
  | nil =>
    exact (join_eq_nil us (fun t ht => ((wellFormedType_iff t).1 (hus t ht)).1) e.symm).symm
  | cons t ts ih =>
    cases us with
    | nil =>
      exact join_eq_nil (t :: ts) (fun x hx => ((wellFormedType_iff x).1 (hts x hx)).1) e
    | cons u us =>
      have ht := (wellFormedType_iff t).1 (hts t (List.mem_cons_self _ _))
      have hu := (wellFormedType_iff u).1 (hus u (List.mem_cons_self _ _))
      have hts' : ∀ x ∈ ts, wellFormedType x = true :=
        fun x hx => hts x (List.mem_cons_of_mem _ hx)
      have hus' : ∀ x ∈ us, wellFormedType x = true :=
        fun x hx => hus x (List.mem_cons_of_mem _ hx)
      rw [join_cons_eq, join_cons_eq] at e
      have key : t = u ∧ joinRest ts = joinRest us := by
        rcases List.append_eq_append_iff.1 e with ⟨a, ha, hb⟩ | ⟨c, hc, hd⟩
        · cases a with
          | nil => exact ⟨by simpa using ha.symm, by simpa using hb⟩
          | cons x a =>
            exfalso
            have hx : x = ',' := by
              cases ts with
              | nil => simp [joinRest] at hb
              | cons _ _ => simp [joinRest] at hb; exact hb.1.symm
            subst hx
            have := scanType_comma_none t a ht.2
            rw [← ha, hu.2] at this
            cases this
        · cases c with
          | nil => exact ⟨by simpa using hc, by simpa using hd.symm⟩
          | cons x c =>
            exfalso
            have hx : x = ',' := by
              cases us with
              | nil => simp [joinRest] at hd
              | cons _ _ => simp [joinRest] at hd; exact hd.1.symm
            subst hx
            have := scanType_comma_none u c hu.2
            rw [← hc, ht.2] at this
            cases this
      obtain ⟨htu, hrest⟩ := key
      subst htu
      congr 1
      cases ts with
      | nil =>
        cases us with
        | nil => rfl
        | cons _ _ => simp [joinRest] at hrest
      | cons t' ts' =>
        cases us with
        | nil => simp [joinRest] at hrest
        | cons u' us' =>
          simp only [joinRest, List.cons.injEq, true_and] at hrest
          exact ih (u' :: us') hts' hus' hrest
theorem scanParens_open_ne (a j : Str) (hj : scanParens 0 j = some 0) :
    scanParens 0 (a ++ '(' :: j) ≠ some 0 := by
  rw [scanParens_append]
  cases h : scanParens 0 a with
  | none => simp
  | some e =>
    simp only [Option.some_bind, scanParens, if_true]
    have := scanParens_shift 0 0 (e + 1) j hj
    rw [Nat.zero_add] at this
    rw [this]
    simp

theorem key_split_aux (n1 n2 j1 j2 : Str) (hj1 : scanParens 0 j1 = some 0)
    (e : (n1 ++ ['(']) ++ j1 = (n2 ++ ['(']) ++ j2) (a : Str)
    (ha : n2 ++ ['('] = (n1 ++ ['(']) ++ a) (hb : j1 = a ++ j2)
    (hj2 : scanParens 0 j2 = some 0) : a = [] := by
  rcases List.eq_nil_or_concat a with h | ⟨a', x, h⟩
  · exact h
  · exfalso
    subst h
    have hx : x = '(' := by
      have := congrArg List.getLast? ha
      simp [List.concat_eq_append, ← List.append_assoc] at this
      exact this.symm
    subst hx
    rw [List.concat_eq_append, List.append_assoc] at hb
    subst hb
    exact scanParens_open_ne a' j2 hj2 hj1

theorem key_injective (n1 n2 j1 j2 : Str) (hj1 : scanParens 0 j1 = some 0)
    (hj2 : scanParens 0 j2 = some 0)
    (e : n1 ++ "(".toList ++ j1 ++ ")".toList = n2 ++ "(".toList ++ j2 ++ ")".toList) :
    n1 = n2 ∧ j1 = j2 := by
  have e1 : (n1 ++ ['(']) ++ j1 = (n2 ++ ['(']) ++ j2 := List.append_cancel_right e
  rcases List.append_eq_append_iff.1 e1 with ⟨a, ha, hb⟩ | ⟨c, hc, hd⟩
  · have := key_split_aux n1 n2 j1 j2 hj1 e1 a ha hb hj2
    subst this
    simp at ha hb
    exact ⟨ha.symm, hb⟩
  · have := key_split_aux n2 n1 j2 j1 hj2 e1.symm c hc hd hj1
    subst this
    simp at hc hd
    exact ⟨hc, hd.symm⟩

theorem sigKey_injective (el1 el2 : AbiMember)
    (h1 : ∀ t ∈ sigTypes el1, wellFormedType t = true)
    (h2 : ∀ t ∈ sigTypes el2, wellFormedType t = true)
    (e : sigKey el1 = sigKey el2) :
    resolvedName el1 = resolvedName el2 ∧ sigTypes el1 = sigTypes el2 := by
  have hj1 := scanParens_join (sigTypes el1) fun t ht => ((wellFormedType_iff t).1 (h1 t ht)).2
  have hj2 := scanParens_join (sigTypes el2) fun t ht => ((wellFormedType_iff t).1 (h2 t ht)).2
  obtain ⟨hn, hj⟩ := key_injective _ _ _ _ hj1 hj2 e
  exact ⟨hn, join_injective _ _ h1 h2 hj⟩

theorem toFinset_keys_members (abi : List AbiMember) :
    (keys (members abi)).toFinset = (abi.map sigKey).toFinset := by
  ext k
  simp only [List.mem_toFinset, mem_keys_members, List.mem_map]

theorem length_keys_members (abi : List AbiMember)
    (hwf : ∀ el ∈ abi, ∀ t ∈ sigTypes el, wellFormedType t = true) :
    (keys (members abi)).length
      = ((abi.map fun el => (resolvedName el, sigTypes el)).dedup).length := by
  rw [← List.toFinset_card_of_nodup (nodup_keys_members abi), ← List.card_toFinset,
    toFinset_keys_members]
  have himg : (abi.map sigKey).toFinset
      = ((abi.map fun el => (resolvedName el, sigTypes el)).toFinset).image
          fun p => p.1 ++ "(".toList ++ join ",".toList p.2 ++ ")".toList := by
    ext k
    simp only [List.mem_toFinset, List.mem_map, Finset.mem_image]
    constructor
    · rintro ⟨el, hel, rfl⟩
      exact ⟨_, ⟨el, hel, rfl⟩, rfl⟩
    · rintro ⟨p, ⟨el, hel, rfl⟩, rfl⟩
      exact ⟨el, hel, rfl⟩
  rw [himg]
  apply Finset.card_image_of_injOn
  intro p hp q hq hpq
  simp only [Finset.mem_coe, List.mem_toFinset, List.mem_map] at hp hq
  obtain ⟨el1, hel1, rfl⟩ := hp
  obtain ⟨el2, hel2, rfl⟩ := hq
  obtain ⟨hn, ht⟩ := sigKey_injective el1 el2 (hwf el1 hel1) (hwf el2 hel2) hpq
  exact Prod.ext hn ht

/-- C8. For any ABI member list, whose derived parameter types are well-formed
type strings (not empty, parentheses balanced, no comma outside parentheses):
two members that produce the same signature key have the same resolved name
and the same sequence of derived parameter types; so the number of keys of the
member index equals the number of distinct pairs of resolved name and derived
parameter types in the ABI. -/
theorem sigKey_distinct (abi : List AbiMember)
    (hwf : ∀ el ∈ abi, ∀ t ∈ sigTypes el, wellFormedType t = true) :
    (∀ el1 ∈ abi, ∀ el2 ∈ abi, sigKey el1 = sigKey el2 →
      resolvedName el1 = resolvedName el2 ∧ sigTypes el1 = sigTypes el2) ∧
    (keys (members abi)).length
      = ((abi.map fun el => (resolvedName el, sigTypes el)).dedup).length :=
  ⟨fun el1 h1 el2 h2 e => sigKey_injective el1 el2 (hwf el1 h1) (hwf el2 h2) e,
    length_keys_members abi hwf⟩

/-- C8 at `getterAbi` followed by `tokenAbi`. -/
theorem sigKey_distinct_witness :
    (∀ el ∈ getterAbi ++ tokenAbi, ∀ t ∈ sigTypes el, wellFormedType t = true) ∧
    (keys (members (getterAbi ++ tokenAbi))).length
      = (((getterAbi ++ tokenAbi).map fun el => (resolvedName el, sigTypes el)).dedup).length :=
  ⟨by decide, (sigKey_distinct (getterAbi ++ tokenAbi) (by decide)).2⟩
/-! ## The theorems at `tokenAbi` -/

/-- C4 at `tokenAbi`, `tokenDevDoc`, `tokenUserDoc` and the key
`send(address)`. -/
theorem mergeDocs_record_witness :
    "send(address)".toList ∈ keys (members tokenAbi) ∧
    ∃ r0 r1 r2 r3 r4 r5 : Obj,
      getProp "send(address)".toList (members tokenAbi) = some r0 ∧
      r1 = overlay tokenDevDoc.events "send(address)".toList r0 ∧
      (∀ name d, getProp name (tokenDevDoc.stateVariables.getD []) = some d →
        "send(address)".toList = name ++ "()".toList →
        r2 = assign (assign r1 d) stateVariableStamp) ∧
      ((∀ name ∈ keys (tokenDevDoc.stateVariables.getD []),
        "send(address)".toList ≠ name ++ "()".toList) → r2 = r1) ∧
      r3 = overlay tokenDevDoc.methods "send(address)".toList r2 ∧
      r4 = overlay tokenUserDoc.events "send(address)".toList r3 ∧
      r5 = overlay tokenUserDoc.methods "send(address)".toList r4 ∧
      getProp "send(address)".toList (mergeDocs tokenDevDoc tokenUserDoc (members tokenAbi))
        = some r5 :=
  ⟨by decide, mergeDocs_record tokenAbi tokenDevDoc tokenUserDoc _ (by decide)⟩

/-- The merged records of `tokenAbi` at `send(address)` and at `balance()`. -/
theorem mergeDocs_token :
    getProp "send(address)".toList (mergeDocs tokenDevDoc tokenUserDoc (members tokenAbi))
      = some [("type".toList, JVal.str "function".toList),
          ("name".toList, JVal.str "send".toList),
          ("inputs".toList, JVal.params [Param.mk "address".toList none]),
          ("details".toList, JVal.str "sends".toList),
          ("notice".toList, JVal.str "Send".toList)] ∧
    getProp "balance()".toList (mergeDocs tokenDevDoc tokenUserDoc (members tokenAbi))
      = some [("type".toList, JVal.str "stateVariable".toList),
          ("name".toList, JVal.str "balance".toList),
          ("inputs".toList, JVal.params []),
          ("stateMutability".toList, JVal.str "view".toList),
          ("details".toList, JVal.str "token balance".toList)] :=
  ⟨rfl, rfl⟩

/-- C10 at `tokenAbi`: `send(address)` is a key of the methods group, whose
record there is the merged record, and not of the events group. -/
theorem groups_partition_witness :
    "send(address)".toList ∈ groupKeys
      (contractDoc "a.sol:T".toList tokenAbi (some tokenDevDoc) (some tokenUserDoc)).methods ∧
    "send(address)".toList ∉ groupKeys
      (contractDoc "a.sol:T".toList tokenAbi (some tokenDevDoc) (some tokenUserDoc)).events ∧
    getProp "send(address)".toList
      ((contractDoc "a.sol:T".toList tokenAbi (some tokenDevDoc)
        (some tokenUserDoc)).methods.getD [])
      = getProp "send(address)".toList
          (mergedIndex tokenAbi (some tokenDevDoc) (some tokenUserDoc)) :=
  have h := groups_partition (mergedIndex tokenAbi (some tokenDevDoc) (some tokenUserDoc))
    "send(address)".toList
  have hm := h.1.2 ⟨_, mergeDocs_token.1, rfl⟩
  ⟨hm, fun he => h.2.2.2.2.2.2.1 ⟨hm, he⟩, h.2.2.2.1 hm⟩
/-! ## Source and name of a contract (C11) -/

theorem split_ne_nil (sep : Char) (s : Str) : split sep s ≠ [] := by
  induction s with
  | nil => simp [split]
  | cons c cs ih =>
    unfold split
    split
    · simp
    · split <;> simp

theorem split_of_not_mem (sep : Char) (s : Str) (h : sep ∉ s) : split sep s = [s] := by
  induction s with
  | nil => rfl
  | cons c cs ih =>
    have hc : ¬ c = sep := fun e => h (e ▸ List.mem_cons_self _ _)
    have ih' := ih fun hm => h (List.mem_cons_of_mem _ hm)
    simp [split, hc, ih']

theorem split_append_sep (sep : Char) (pre post : Str) (h : sep ∉ pre) :
    split sep (pre ++ sep :: post) = pre :: split sep post := by
  induction pre with
  | nil => simp [split]
  | cons c cs ih =>
    have hc : ¬ c = sep := fun e => h (e ▸ List.mem_cons_self _ _)
    have ih' := ih fun hm => h (List.mem_cons_of_mem _ hm)
    simp [split, hc, ih']

theorem split_head (sep : Char) (s : Str) :
    (split sep s)[0]? = some (s.takeWhile fun c => decide (c ≠ sep)) := by
  induction s with
  | nil => rfl
  | cons c cs ih =>
    by_cases hc : c = sep
    · simp [split, hc]
    · unfold split
      simp only [hc, if_false]
      cases hs : split sep cs with
      | nil => exact absurd hs (split_ne_nil sep cs)
      | cons h t =>
        rw [hs] at ih
        simp at ih
        simp [hc, ih]

/-- C11 as stated fails: for the identifier `a.sol:b:c` the name is `b`, the
text between the first and the second colon, not `b:c`. -/
theorem contractDoc_name_counterexample :
    ¬ ∀ (pre post : Str) (abi : List AbiMember) (devdoc : Option DevDoc)
        (userdoc : Option UserDoc), ':' ∉ pre →
      (contractDoc (pre ++ ':' :: post) abi devdoc userdoc).source = some pre ∧
      (contractDoc (pre ++ ':' :: post) abi devdoc userdoc).name = some post := by
  intro h
  have := (h "a.sol".toList "b:c".toList [] none none (by decide)).2
  exact absurd this (by decide)

theorem source_of_contractDoc (pre post : Str) (abi : List AbiMember)
    (devdoc : Option DevDoc) (userdoc : Option UserDoc) (h : ':' ∉ pre) :
    (contractDoc (pre ++ ':' :: post) abi devdoc userdoc).source = some pre := by
  simp only [contractDoc, split_append_sep ':' pre post h, List.getElem?_cons_zero]

theorem name_of_contractDoc (pre post : Str) (abi : List AbiMember)
    (devdoc : Option DevDoc) (userdoc : Option UserDoc) (h : ':' ∉ pre) :
    (contractDoc (pre ++ ':' :: post) abi devdoc userdoc).name
      = some (post.takeWhile fun c => decide (c ≠ ':')) := by
  simp only [contractDoc, split_append_sep ':' pre post h, List.getElem?_cons_succ]
  exact split_head ':' post

theorem name_of_contractDoc_one_colon (pre post : Str) (abi : List AbiMember)
    (devdoc : Option DevDoc) (userdoc : Option UserDoc) (h : ':' ∉ pre) (hp : ':' ∉ post) :
    (contractDoc (pre ++ ':' :: post) abi devdoc userdoc).name = some post := by
  simp only [contractDoc, split_append_sep ':' pre post h, split_of_not_mem ':' post hp,
    List.getElem?_cons_succ, List.getElem?_cons_zero]

/-- C11, amended. For every fully-qualified contract identifier that contains
a colon, `pre` being the text before the first colon and `post` the text after
it: the source of the ContractDoc is `pre`; and when the identifier contains
no other colon, its name is the whole of `post`, so that source, colon and
name make up the identifier. -/
theorem contractDoc_source_name (pre post : Str) (abi : List AbiMember)
    (devdoc : Option DevDoc) (userdoc : Option UserDoc) (h : ':' ∉ pre) :
    (contractDoc (pre ++ ':' :: post) abi devdoc userdoc).source = some pre ∧
    (':' ∉ post →
      (contractDoc (pre ++ ':' :: post) abi devdoc userdoc).name = some post ∧
      ∀ src nm, (contractDoc (pre ++ ':' :: post) abi devdoc userdoc).source = some src →
        (contractDoc (pre ++ ':' :: post) abi devdoc userdoc).name = some nm →
        src ++ ':' :: nm = pre ++ ':' :: post) := by
  have hs := source_of_contractDoc pre post abi devdoc userdoc h
  refine ⟨hs, fun hp => ?_⟩
  have hn := name_of_contractDoc_one_colon pre post abi devdoc userdoc h hp
  refine ⟨hn, fun src nm h1 h2 => ?_⟩
  rw [hs] at h1; rw [hn] at h2
  cases h1; cases h2; rfl

/-- C11, amended, at the identifier `contracts/Token.sol:Token`. -/
theorem contractDoc_source_name_witness :
    ':' ∉ "contracts/Token.sol".toList ∧
    (contractDoc ("contracts/Token.sol".toList ++ ':' :: "Token".toList) tokenAbi
      (some tokenDevDoc) none).source = some "contracts/Token.sol".toList ∧
    (contractDoc ("contracts/Token.sol".toList ++ ':' :: "Token".toList) tokenAbi
      (some tokenDevDoc) none).name = some "Token".toList :=
  ⟨by decide,
    (contractDoc_source_name "contracts/Token.sol".toList "Token".toList tokenAbi
      (some tokenDevDoc) none (by decide)).1,
    ((contractDoc_source_name "contracts/Token.sol".toList "Token".toList tokenAbi
      (some tokenDevDoc) none (by decide)).2 (by decide)).1⟩

/-! ## Path validation of the `docgen` task (C12, C13) -/

theorem startsWith_self (s : Str) : startsWith s s = true := by
  have := stripPrefix_append s []
  rw [List.append_nil] at this
  simp [startsWith, this]

theorem docgenTask_of_not_startsWith (root outputDirectory : Str) (clear : Bool)
    (contractNames : List Str) (webpackError : Option Str)
    (h : startsWith root outputDirectory = false) :
    docgenTask root outputDirectory clear contractNames webpackError
      = ⟨[], some "resolved path must be inside of project directory".toList⟩ := by
  simp [docgenTask, h]

/-- C12, the code at the project root `/home/proj` and the resolved output
directory `/home/proj-docs` (the configured path `../proj-docs`) with `clear`
set: the directory does not lie inside the root, yet the check of line 34,
a comparison of the leading characters, lets it through; the task deletes
the directory, reads the contracts and writes the bundle, and throws no
error. -/
theorem docgenTask_sibling_directory :
    liesInside "/home/proj".toList "/home/proj-docs".toList = false ∧
    docgenTask "/home/proj".toList "/home/proj-docs".toList true ["a.sol:A".toList] none
      = ⟨[Effect.rmdir "/home/proj-docs".toList, Effect.getAllFullyQualifiedNames,
          Effect.getBuildInfo "a.sol:A".toList, Effect.webpack "/home/proj-docs".toList],
        none⟩ := by
  decide

/-- C13. For every project root, when the resolved output directory equals the
project root the task fails with the configuration error `resolved path must
not be root directory` and has performed no action: no deletion, whatever
`clear` is, no read of an artifact and no bundle. -/
theorem docgenTask_root (root : Str) (clear : Bool) (contractNames : List Str)
    (webpackError : Option Str) :
    docgenTask root root clear contractNames webpackError
      = ⟨[], some "resolved path must not be root directory".toList⟩ := by
  simp [docgenTask, startsWith_self]

/-! ## Keys and top-level fields of the output (C14, C16) -/

/-- C14. For a fixed ABI the keys of the merged member index do not depend on
the documentation: whatever the devdoc and the userdoc, absent ones included,
the merged index has exactly the keys of the index built from the ABI alone,
in the same order, so two pairs of trees give the same keys. -/
theorem mergedIndex_keys (abi : List AbiMember) (devdoc devdoc' : Option DevDoc)
    (userdoc userdoc' : Option UserDoc) :
    keys (mergedIndex abi devdoc userdoc) = keys (members abi) ∧
    keys (mergedIndex abi none none) = keys (members abi) ∧
    keys (mergedIndex abi devdoc userdoc) = keys (mergedIndex abi devdoc' userdoc') :=
  ⟨keys_mergedIndex abi devdoc userdoc, keys_mergedIndex abi none none,
    (keys_mergedIndex abi devdoc userdoc).trans (keys_mergedIndex abi devdoc' userdoc').symm⟩

/-- C16. For every contract, the title, author and details of the ContractDoc
are the top-level title, author and details of the devdoc and its notice is
the top-level notice of the userdoc, each absent when the tree or the field is
absent; the four values are the same whatever the contract name, the ABI and
the sub-maps of the two trees. -/
theorem contractDoc_top_level (contractName : Str) (abi : List AbiMember)
    (devdoc : Option DevDoc) (userdoc : Option UserDoc) :
    (contractDoc contractName abi devdoc userdoc).title = devdoc.bind DevDoc.title ∧
    (contractDoc contractName abi devdoc userdoc).author = devdoc.bind DevDoc.author ∧
    (contractDoc contractName abi devdoc userdoc).details = devdoc.bind DevDoc.details ∧
    (contractDoc contractName abi devdoc userdoc).notice = userdoc.bind UserDoc.notice ∧
    (∀ (contractName' : Str) (abi' : List AbiMember) (title author details notice : Option JVal)
        (e s m e' s' m' ue um ue' um' : Option DocMap),
      (contractDoc contractName abi (some ⟨title, author, details, e, s, m⟩)
          (some ⟨notice, ue, um⟩)).title
        = (contractDoc contractName' abi' (some ⟨title, author, details, e', s', m'⟩)
          (some ⟨notice, ue', um'⟩)).title ∧
      (contractDoc contractName abi (some ⟨title, author, details, e, s, m⟩)
          (some ⟨notice, ue, um⟩)).author
        = (contractDoc contractName' abi' (some ⟨title, author, details, e', s', m'⟩)
          (some ⟨notice, ue', um'⟩)).author ∧
      (contractDoc contractName abi (some ⟨title, author, details, e, s, m⟩)
          (some ⟨notice, ue, um⟩)).details
        = (contractDoc contractName' abi' (some ⟨title, author, details, e', s', m'⟩)
          (some ⟨notice, ue', um'⟩)).details ∧
      (contractDoc contractName abi (some ⟨title, author, details, e, s, m⟩)
          (some ⟨notice, ue, um⟩)).notice
        = (contractDoc contractName' abi' (some ⟨title, author, details, e', s', m'⟩)
          (some ⟨notice, ue', um'⟩)).notice) := by
  refine ⟨?_, ?_, ?_, ?_, fun _ _ _ _ _ _ _ _ _ _ _ _ _ _ _ _ => ⟨rfl, rfl, rfl, rfl⟩⟩
  · cases devdoc <;> rfl
  · cases devdoc <;> rfl
  · cases devdoc <;> rfl
  · cases userdoc <;> rfl
/-! ## Members without annotation (C15) -/

theorem getProp_members_foldl_of_ne (s : Str) (post : List AbiMember) (acc : Index)
    (h : ∀ e ∈ post, sigKey e ≠ s) :
    getProp s (post.foldl (fun acc el => setProp (sigKey el) el.toObj acc) acc)
      = getProp s acc := by
  induction post generalizing acc with
  | nil => rfl
  | cons e post ih =>
    rw [List.foldl_cons, ih _ fun x hx => h x (List.mem_cons_of_mem _ hx),
      get_set_of_ne _ _ _ _ (h e (List.mem_cons_self _ _))]

theorem getProp_members_of_last (pre post : List AbiMember) (el : AbiMember)
    (h : ∀ e ∈ post, sigKey e ≠ sigKey el) :
    getProp (sigKey el) (members (pre ++ el :: post)) = some el.toObj := by
  rw [members, List.foldl_append, List.foldl_cons, getProp_members_foldl_of_ne _ _ _ h,
    get_set_self]

theorem getProp_mergeDocs_of_unannotated (devdoc : DevDoc) (userdoc : UserDoc) (idx : Index)
    (s : Str)
    (hde : s ∉ keys (devdoc.events.getD []))
    (hsv : ∀ name ∈ keys (devdoc.stateVariables.getD []), s ≠ name ++ "()".toList)
    (hdm : s ∉ keys (devdoc.methods.getD []))
    (hue : s ∉ keys (userdoc.events.getD []))
    (hum : s ∉ keys (userdoc.methods.getD [])) :
    getProp s (mergeDocs devdoc userdoc idx) = getProp s idx := by
  rw [getProp_mergeDocs]
  cases h : getProp s idx with
  | none => rfl
  | some r =>
    simp only [Option.map_some']
    rw [overlay_of_miss _ _ _ ((get_eq_none_iff _ _).2 hum),
      overlay_of_miss _ _ _ ((get_eq_none_iff _ _).2 hue),
      overlay_of_miss _ _ _ ((get_eq_none_iff _ _).2 hdm),
      srcFor_stateVariableCalls_of_ne _ s hsv, assign_nil,
      overlay_of_miss _ _ _ ((get_eq_none_iff _ _).2 hde)]

/-- C15. For every ABI member whose signature key `s` is a key of none of
`devdoc.events`, `devdoc.methods`, `userdoc.events` and `userdoc.methods`, and
is not a key of `devdoc.stateVariables` followed by `()`, the merged record at
`s` is the record the index holds at `s`, unchanged, whatever annotations exist
for other signatures: it is the member itself, field for field, when the
member is the one the index holds at `s` (no later member of the array has the
same key, C9). -/
theorem mergeDocs_unannotated (abi : List AbiMember) (devdoc : DevDoc) (userdoc : UserDoc)
    (el : AbiMember) (hel : el ∈ abi)
    (hde : sigKey el ∉ keys (devdoc.events.getD []))
    (hsv : ∀ name ∈ keys (devdoc.stateVariables.getD []), sigKey el ≠ name ++ "()".toList)
    (hdm : sigKey el ∉ keys (devdoc.methods.getD []))
    (hue : sigKey el ∉ keys (userdoc.events.getD []))
    (hum : sigKey el ∉ keys (userdoc.methods.getD [])) :
    sigKey el ∈ keys (mergeDocs devdoc userdoc (members abi)) ∧
    getProp (sigKey el) (mergeDocs devdoc userdoc (members abi))
      = getProp (sigKey el) (members abi) ∧
    (∀ pre post, abi = pre ++ el :: post → (∀ e ∈ post, sigKey e ≠ sigKey el) →
      getProp (sigKey el) (mergeDocs devdoc userdoc (members abi)) = some el.toObj) := by
  have h := getProp_mergeDocs_of_unannotated devdoc userdoc (members abi) (sigKey el)
    hde hsv hdm hue hum
  refine ⟨?_, h, fun pre post hab hpost => ?_⟩
  · rw [keys_mergeDocs]; exact (mem_keys_members abi _).2 ⟨el, hel, rfl⟩
  · rw [h, hab]; exact getProp_members_of_last pre post el hpost

/-- C15 at `tokenAbi` and its constructor, which `tokenDevDoc` and
`tokenUserDoc` do not annotate. -/
theorem mergeDocs_unannotated_witness :
    getProp "constructor(uint256)".toList (mergeDocs tokenDevDoc tokenUserDoc (members tokenAbi))
      = some [("type".toList, JVal.str "constructor".toList),
          ("inputs".toList, JVal.params [Param.mk "uint256".toList none])] :=
  (mergeDocs_unannotated tokenAbi tokenDevDoc tokenUserDoc
    { type := "constructor".toList, name := none,
      inputs := some [Param.mk "uint256".toList none], rest := [] }
    (List.mem_cons_self _ _) (by decide) (by decide) (by decide) (by decide) (by decide)).2.2
    [] _ rfl (by decide)

/-! ## The compile override (C17) -/

theorem getElem?_pushDocs (i j : Nat) (st : List (List Str)) :
    (pushDocs i st)[j]?
      = if j = i then st[j]?.map fun a => a ++ ["devdoc".toList] ++ ["userdoc".toList]
        else st[j]? := by
  induction st generalizing i j with
  | nil => simp [pushDocs]
  | cons a t ih =>
    cases i with
    | zero =>
      cases j with
      | zero => simp [pushDocs]
      | succ j => simp [pushDocs]
    | succ i =>
      cases j with
      | zero => simp [pushDocs]
      | succ j => simp [pushDocs, ih]

theorem length_pushDocs (i : Nat) (st : List (List Str)) : (pushDocs i st).length = st.length := by
  induction st generalizing i with
  | nil => simp [pushDocs]
  | cons a t ih => cases i <;> simp [pushDocs, ih]

theorem pushOutputSelections_spec (compilers : List Nat) (store : List (List Str)) (j : Nat)
    (old : List Str) (h : store[j]? = some old) :
    ∃ new, (pushOutputSelections store compilers)[j]? = some new ∧ old <+: new ∧
      (j ∈ compilers → "devdoc".toList ∈ new ∧ "userdoc".toList ∈ new) := by
  induction compilers generalizing store old with
  | nil => exact ⟨old, h, List.prefix_refl _, fun hj => absurd hj (List.not_mem_nil _)⟩
  | cons i rest ih =>
    by_cases hji : j = i
    · have h1 : (pushDocs i store)[j]?
          = some (old ++ ["devdoc".toList] ++ ["userdoc".toList]) := by
        rw [getElem?_pushDocs, if_pos hji, h]; rfl
      obtain ⟨new, hn, hp, _⟩ := ih (pushDocs i store) _ h1
      refine ⟨new, hn, ?_, fun _ => ?_⟩
      · exact List.IsPrefix.trans ⟨["devdoc".toList] ++ ["userdoc".toList], by simp⟩ hp
      · exact ⟨hp.subset (by simp), hp.subset (by simp)⟩
    · have h1 : (pushDocs i store)[j]? = some old := by
        rw [getElem?_pushDocs, if_neg hji, h]
      obtain ⟨new, hn, hp, hmem⟩ := ih (pushDocs i store) _ h1
      refine ⟨new, hn, hp, fun hj => ?_⟩
      rcases List.mem_cons.1 hj with e | e
      · exact absurd e hji
      · exact hmem e

theorem length_pushOutputSelections (compilers : List Nat) (store : List (List Str)) :
    (pushOutputSelections store compilers).length = store.length := by
  induction compilers generalizing store with
  | nil => rfl
  | cons i rest ih =>
    rw [pushOutputSelections, List.foldl_cons]
    exact (ih (pushDocs i store)).trans (length_pushDocs i store)

/-- C17. After the loop of the compile override, for every compiler
configuration, whose output selection list at `['*']['*']` was `old`, the list
contains both `devdoc` and `userdoc`, and every entry that was in it before is
still there in its original relative order: `old` is a prefix of the new
list. -/
theorem pushOutputSelections_contains (store : List (List Str)) (compilers : List Nat)
    (j : Nat) (old : List Str) (hj : j ∈ compilers) (h : store[j]? = some old) :
    ∃ new, (pushOutputSelections store compilers)[j]? = some new ∧
      "devdoc".toList ∈ new ∧ "userdoc".toList ∈ new ∧ old <+: new ∧ List.Sublist old new := by
  obtain ⟨new, hn, hp, hmem⟩ := pushOutputSelections_spec compilers store j old h
  exact ⟨new, hn, (hmem hj).1, (hmem hj).2, hp, hp.sublist⟩

/-- C17 at two compiler configurations that share one list and a third with
its own. -/
theorem pushOutputSelections_contains_witness :
    ∃ new, (pushOutputSelections [["abi".toList, "evm.bytecode".toList], ["abi".toList]]
        [0, 0, 1])[0]? = some new ∧
      "devdoc".toList ∈ new ∧ "userdoc".toList ∈ new ∧
      ["abi".toList, "evm.bytecode".toList] <+: new ∧
      List.Sublist ["abi".toList, "evm.bytecode".toList] new :=
  pushOutputSelections_contains [["abi".toList, "evm.bytecode".toList], ["abi".toList]]
    [0, 0, 1] 0 _ (by decide) rfl
/-! ## Getters of state variables (C18) -/

theorem getProp_assign_of_not_mem (f : Str) (r src : Obj) (h : f ∉ keys src) :
    getProp f (assign r src) = getProp f r := by
  induction src generalizing r with
  | nil => rfl
  | cons p src ih =>
    obtain ⟨k, v⟩ := p
    rw [keys_cons, List.mem_cons, not_or] at h
    rw [assign_cons, ih _ h.2, get_set_of_ne _ _ _ _ fun e => h.1 e.symm]

theorem mem_keys_assign (f : Str) (r src : Obj) (h : f ∈ keys r) : f ∈ keys (assign r src) := by
  induction src generalizing r with
  | nil => exact h
  | cons p src ih =>
    rw [assign_cons]
    exact ih _ ((mem_keys_set _ _ _ _).2 (Or.inr h))

theorem getProp_overlay_of_not_mem (m : Option DocMap) (s f : Str) (r : Obj)
    (h : ∀ a, getProp s (m.getD []) = some a → f ∉ keys a) :
    getProp f (overlay m s r) = getProp f r := by
  unfold overlay
  cases ha : getProp s (m.getD []) with
  | none => rfl
  | some a => exact getProp_assign_of_not_mem f r a (h a ha)

theorem mem_keys_overlay (m : Option DocMap) (s f : Str) (r : Obj) (h : f ∈ keys r) :
    f ∈ keys (overlay m s r) := by
  unfold overlay
  cases getProp s (m.getD []) with
  | none => exact h
  | some a => exact mem_keys_assign f r a h

theorem getProp_type_stamp (r : Obj) :
    getProp "type".toList (assign r stateVariableStamp)
      = some (JVal.str "stateVariable".toList) := by
  rw [stateVariableStamp, getProp_assign_single]; simp

theorem getProp_stamp_of_ne (f : Str) (r : Obj) (h : f ≠ "type".toList) :
    getProp f (assign r stateVariableStamp) = getProp f r := by
  rw [stateVariableStamp, getProp_assign_single, if_neg fun e => h e.symm]

/-- C18. For every ABI with a member of signature key `x()` and every devdoc
with a stateVariables entry `d` for `x`, when no annotation merged later for
`x()` (`devdoc.methods`, `userdoc.events`, `userdoc.methods`) has a `type`
field: the merged record at `x()` has type `stateVariable`; `x()` is a key of
the stateVariables group of the output and not of its methods group; and the
record keeps the fields of the getter: each is still a field of the merged
record, with its value when it is not `type` and no annotation for `x()` has a
field of that name. -/
theorem getter_stateVariable (contractName : Str) (abi : List AbiMember) (devdoc : DevDoc)
    (userdoc : UserDoc) (x : Str) (d : Obj)
    (hx : x ++ "()".toList ∈ keys (members abi))
    (hd : getProp x (devdoc.stateVariables.getD []) = some d)
    (hdm : ∀ a, getProp (x ++ "()".toList) (devdoc.methods.getD []) = some a →
      "type".toList ∉ keys a)
    (hue : ∀ a, getProp (x ++ "()".toList) (userdoc.events.getD []) = some a →
      "type".toList ∉ keys a)
    (hum : ∀ a, getProp (x ++ "()".toList) (userdoc.methods.getD []) = some a →
      "type".toList ∉ keys a) :
    ∃ r0 r : Obj,
      getProp (x ++ "()".toList) (members abi) = some r0 ∧
      getProp (x ++ "()".toList) (mergedIndex abi (some devdoc) (some userdoc)) = some r ∧
      getProp "type".toList r = some (JVal.str "stateVariable".toList) ∧
      x ++ "()".toList ∈ groupKeys
        (contractDoc contractName abi (some devdoc) (some userdoc)).stateVariables ∧
      x ++ "()".toList ∉ groupKeys
        (contractDoc contractName abi (some devdoc) (some userdoc)).methods ∧
      getProp (x ++ "()".toList)
        ((contractDoc contractName abi (some devdoc) (some userdoc)).stateVariables.getD [])
          = some r ∧
      (∀ f ∈ keys r0, f ∈ keys r) ∧
      (∀ f, f ≠ "type".toList → f ∉ keys d →
        (∀ a, getProp (x ++ "()".toList) (devdoc.events.getD []) = some a → f ∉ keys a) →
        (∀ a, getProp (x ++ "()".toList) (devdoc.methods.getD []) = some a → f ∉ keys a) →
        (∀ a, getProp (x ++ "()".toList) (userdoc.events.getD []) = some a → f ∉ keys a) →
        (∀ a, getProp (x ++ "()".toList) (userdoc.methods.getD []) = some a → f ∉ keys a) →
        getProp f r = getProp f r0) := by
  obtain ⟨r0, h0⟩ := (mem_keys_iff_get _ _).1 hx
  have hg : getProp (x ++ "()".toList) (mergedIndex abi (some devdoc) (some userdoc))
      = some (overlay userdoc.methods (x ++ "()".toList)
          (overlay userdoc.events (x ++ "()".toList)
            (overlay devdoc.methods (x ++ "()".toList)
              (assign (assign (overlay devdoc.events (x ++ "()".toList) r0) d)
                stateVariableStamp)))) := by
    rw [mergedIndex, getProp_mergeDocs, h0]
    simp only [Option.getD_some, Option.map_some']
    rw [assign_srcFor_stateVariableCalls _ x d _ hd]
  have htype : getProp "type".toList
      (overlay userdoc.methods (x ++ "()".toList)
        (overlay userdoc.events (x ++ "()".toList)
          (overlay devdoc.methods (x ++ "()".toList)
            (assign (assign (overlay devdoc.events (x ++ "()".toList) r0) d)
              stateVariableStamp))))
      = some (JVal.str "stateVariable".toList) := by
    rw [getProp_overlay_of_not_mem _ _ _ _ hum, getProp_overlay_of_not_mem _ _ _ _ hue,
      getProp_overlay_of_not_mem _ _ _ _ hdm, getProp_type_stamp]
  have hsv : x ++ "()".toList ∈ groupKeys (getProp "stateVariable".toList
      (membersByType (mergedIndex abi (some devdoc) (some userdoc)))) :=
    (mem_groupKeys _ _ _).2 ⟨_, hg, typeKey_of_str _ _ htype⟩
  refine ⟨r0, _, h0, hg, htype, hsv, ?_, ?_, ?_, ?_⟩
  · intro hm
    exact not_mem_two_groups _ "function".toList "stateVariable".toList _ (by decide) ⟨hm, hsv⟩
  · have := getProp_group_of_mem _ _ _ hsv
    rw [hg] at this
    exact this
  · intro f hf
    exact mem_keys_overlay _ _ _ _ (mem_keys_overlay _ _ _ _ (mem_keys_overlay _ _ _ _
      (mem_keys_assign _ _ _ (mem_keys_assign _ _ _ (mem_keys_overlay _ _ _ _ hf)))))
  · intro f hft hfd h1 h2 h3 h4
    rw [getProp_overlay_of_not_mem _ _ _ _ h4, getProp_overlay_of_not_mem _ _ _ _ h3,
      getProp_overlay_of_not_mem _ _ _ _ h2, getProp_stamp_of_ne _ _ hft,
      getProp_assign_of_not_mem _ _ _ hfd, getProp_overlay_of_not_mem _ _ _ _ h1]

/-- C18 at `tokenAbi` and its getter `balance()`. -/
theorem getter_stateVariable_witness :
    "balance()".toList ∈ groupKeys
      (contractDoc "a.sol:T".toList tokenAbi (some tokenDevDoc)
        (some tokenUserDoc)).stateVariables ∧
    "balance()".toList ∉ groupKeys
      (contractDoc "a.sol:T".toList tokenAbi (some tokenDevDoc) (some tokenUserDoc)).methods := by
  obtain ⟨r0, r, _, _, _, h1, h2, _⟩ :=
    getter_stateVariable "a.sol:T".toList tokenAbi tokenDevDoc tokenUserDoc "balance".toList
      [("details".toList, JVal.str "token balance".toList)] (by decide) rfl
      (fun a h => by cases h) (fun a h => by cases h) (fun a h => by cases h)
  exact ⟨h1, h2⟩
/-! ## Constructor, fallback and receive (C19) -/

theorem find?_first (p : Str → Bool) (pre post : List Str) (k : Str)
    (hpre : ∀ x ∈ pre, p x = false) (hk : p k = true) :
    (pre ++ k :: post).find? p = some k := by
  induction pre with
  | nil => simp [List.find?, hk]
  | cons a pre ih =>
    have ha := hpre a (List.mem_cons_self _ _)
    simp only [List.cons_append, List.find?, ha]
    exact ih fun x hx => hpre x (List.mem_cons_of_mem _ hx)

theorem find?_none_of_all_false (p : Str → Bool) (l : List Str) (h : ∀ x ∈ l, p x = false) :
    l.find? p = none := by
  induction l with
  | nil => rfl
  | cons a l ih =>
    simp only [List.find?, h a (List.mem_cons_self _ _)]
    exact ih fun x hx => h x (List.mem_cons_of_mem _ hx)

theorem paren_mem_sigKey (el : AbiMember) : '(' ∈ sigKey el := by
  simp [sigKey]

theorem undefined_not_mem_keys (abi : List AbiMember) :
    "undefined".toList ∉ keys (members abi) := by
  intro h
  obtain ⟨el, _, he⟩ := (mem_keys_members abi _).1 h
  have := paren_mem_sigKey el
  rw [he] at this
  exact absurd this (by decide)

theorem startsWith_eq_true_iff (pre s : Str) : startsWith pre s = true ↔ ∃ r, s = pre ++ r := by
  rw [startsWith, Option.isSome_iff_exists]
  constructor
  · rintro ⟨r, hr⟩; exact ⟨r, (stripPrefix_eq_some _ _ _).1 hr⟩
  · rintro ⟨r, hr⟩; exact ⟨r, (stripPrefix_eq_some _ _ _).2 hr⟩

theorem startsWith_constructor_sigKey (el : AbiMember) :
    startsWith "constructor(".toList (sigKey el) = true
      ↔ resolvedName el = "constructor".toList
          ∨ startsWith "constructor(".toList (resolvedName el) = true := by
  have hkey : sigKey el
      = resolvedName el ++ '(' :: (join ",".toList (sigTypes el) ++ ")".toList) := by
    simp [sigKey]
  have hP : "constructor(".toList = "constructor".toList ++ ['('] := rfl
  rw [startsWith_eq_true_iff, startsWith_eq_true_iff, hkey]
  constructor
  · rintro ⟨r, hr⟩
    rcases List.append_eq_append_iff.1 hr with ⟨a, ha, ha2⟩ | ⟨c, hc, hd⟩
    · cases a with
      | nil =>
        rw [List.append_nil] at ha
        exact Or.inr ⟨[], by rw [ha, List.append_nil]⟩
      | cons y a =>
        have hy : y = '(' := by
          simp only [List.cons_append, List.cons.injEq] at ha2
          exact ha2.1.symm
        subst hy
        rw [hP] at ha
        rcases List.append_eq_append_iff.1 ha with ⟨b, hb, hb2⟩ | ⟨b, hb, hb2⟩
        · cases b with
          | nil => left; rw [hb, List.append_nil]
          | cons z b =>
            exfalso
            have hl := congrArg List.length hb2
            simp at hl
        · cases b with
          | nil => left; rw [hb, List.append_nil]
          | cons z b =>
            exfalso
            have hz : z = '(' := by
              simp only [List.cons_append, List.cons.injEq] at hb2
              exact hb2.1.symm
            subst hz
            have : '(' ∈ "constructor".toList := by
              rw [hb]; simp
            exact absurd this (by decide)
    · exact Or.inr ⟨c, hc⟩
  · rintro (h | ⟨r, hr⟩)
    · rw [h]
      exact ⟨join ",".toList (sigTypes el) ++ ")".toList, rfl⟩
    · rw [hr]
      exact ⟨r ++ '(' :: (join ",".toList (sigTypes el) ++ ")".toList), by simp⟩
theorem findConstructor_first (idx : Index) (pre post : List Str) (k : Str)
    (hk : keys idx = pre ++ k :: post)
    (hpre : ∀ x ∈ pre, startsWith "constructor(".toList x = false)
    (hs : startsWith "constructor(".toList k = true) :
    findConstructor idx = getProp k idx := by
  rw [findConstructor, hk, find?_first _ pre post k hpre hs]

theorem findConstructor_none (abi : List AbiMember) (devdoc : Option DevDoc)
    (userdoc : Option UserDoc)
    (h : ∀ k ∈ keys (mergedIndex abi devdoc userdoc),
      startsWith "constructor(".toList k = false) :
    findConstructor (mergedIndex abi devdoc userdoc) = none := by
  rw [findConstructor, find?_none_of_all_false _ _ h]
  apply (get_eq_none_iff _ _).2
  rw [keys_mergedIndex]
  exact undefined_not_mem_keys abi

theorem no_constructor_key_iff (abi : List AbiMember) (devdoc : Option DevDoc)
    (userdoc : Option UserDoc) :
    (∀ k ∈ keys (mergedIndex abi devdoc userdoc), startsWith "constructor(".toList k = false)
      ↔ ∀ el ∈ abi, resolvedName el ≠ "constructor".toList
          ∧ startsWith "constructor(".toList (resolvedName el) = false := by
  rw [keys_mergedIndex]
  constructor
  · intro h el hel
    have hk := h (sigKey el) ((mem_keys_members abi _).2 ⟨el, hel, rfl⟩)
    have hn : ¬ (resolvedName el = "constructor".toList
        ∨ startsWith "constructor(".toList (resolvedName el) = true) := by
      intro hc
      rw [(startsWith_constructor_sigKey el).2 hc] at hk
      cases hk
    exact ⟨fun e => hn (Or.inl e), by
      cases hsw : startsWith "constructor(".toList (resolvedName el) with
      | false => rfl
      | true => exact absurd (Or.inr hsw) hn⟩
  · intro h k hk
    obtain ⟨el, hel, he⟩ := (mem_keys_members abi k).1 hk
    subst he
    cases hsw : startsWith "constructor(".toList (sigKey el) with
    | false => rfl
    | true =>
      rcases (startsWith_constructor_sigKey el).1 hsw with h1 | h1
      · exact absurd h1 (h el hel).1
      · rw [(h el hel).2] at h1; cases h1

theorem not_startsWith_constructor_of_no_paren (n : Str) (h : '(' ∉ n) :
    startsWith "constructor(".toList n = false := by
  cases hs : startsWith "constructor(".toList n with
  | false => rfl
  | true =>
    obtain ⟨r, hr⟩ := (startsWith_eq_true_iff _ _).1 hs
    exact absurd (by rw [hr]; exact List.mem_append_left _ (by decide)) h

/-- C19. For every ABI, whose member names hold no parenthesis, and every
devdoc and userdoc: the fallback of the ContractDoc is the merged record at
key `fallback()` and its receive is the merged record at key `receive()`, each
absent when the index has no such key; its constructor is the merged record of
the first key, in index insertion order, that starts with `constructor(`, and
is absent when no key starts with `constructor(`, which is the case exactly
when no ABI member has the resolved name `constructor`. -/
theorem special_members (contractName : Str) (abi : List AbiMember)
    (devdoc : Option DevDoc) (userdoc : Option UserDoc)
    (hnames : ∀ el ∈ abi, '(' ∉ resolvedName el) :
    (contractDoc contractName abi devdoc userdoc).fallback
      = getProp "fallback()".toList (mergedIndex abi devdoc userdoc) ∧
    (contractDoc contractName abi devdoc userdoc).receive
      = getProp "receive()".toList (mergedIndex abi devdoc userdoc) ∧
    ((contractDoc contractName abi devdoc userdoc).fallback = none
      ↔ "fallback()".toList ∉ keys (mergedIndex abi devdoc userdoc)) ∧
    ((contractDoc contractName abi devdoc userdoc).receive = none
      ↔ "receive()".toList ∉ keys (mergedIndex abi devdoc userdoc)) ∧
    (∀ pre k post, keys (mergedIndex abi devdoc userdoc) = pre ++ k :: post →
      (∀ x ∈ pre, startsWith "constructor(".toList x = false) →
      startsWith "constructor(".toList k = true →
      (contractDoc contractName abi devdoc userdoc).constructor
          = getProp k (mergedIndex abi devdoc userdoc) ∧
        ∃ r, (contractDoc contractName abi devdoc userdoc).constructor = some r) ∧
    ((∀ k ∈ keys (mergedIndex abi devdoc userdoc),
        startsWith "constructor(".toList k = false) →
      (contractDoc contractName abi devdoc userdoc).constructor = none) ∧
    ((∀ k ∈ keys (mergedIndex abi devdoc userdoc),
        startsWith "constructor(".toList k = false)
      ↔ ∀ el ∈ abi, resolvedName el ≠ "constructor".toList) := by
  refine ⟨rfl, rfl, get_eq_none_iff _ _, get_eq_none_iff _ _, ?_, ?_, ?_⟩
  · intro pre k post hk hpre hs
    have hc : (contractDoc contractName abi devdoc userdoc).constructor
        = getProp k (mergedIndex abi devdoc userdoc) :=
      findConstructor_first _ pre post k hk hpre hs
    refine ⟨hc, ?_⟩
    have hmem : k ∈ keys (mergedIndex abi devdoc userdoc) := by
      rw [hk]; simp
    obtain ⟨r, hr⟩ := (mem_keys_iff_get _ _).1 hmem
    exact ⟨r, hc.trans hr⟩
  · intro h
    exact findConstructor_none abi devdoc userdoc h
  · rw [no_constructor_key_iff]
    constructor
    · intro h el hel; exact (h el hel).1
    · intro h el hel
      exact ⟨h el hel, not_startsWith_constructor_of_no_paren _ (hnames el hel)⟩

/-- C19 at `tokenAbi`: the constructor of the output is the merged record at
`constructor(uint256)`, the first key of the index, and there is no
fallback. -/
theorem special_members_witness :
    (∀ el ∈ tokenAbi, '(' ∉ resolvedName el) ∧
    (contractDoc "a.sol:T".toList tokenAbi (some tokenDevDoc) (some tokenUserDoc)).constructor
      = getProp "constructor(uint256)".toList
          (mergedIndex tokenAbi (some tokenDevDoc) (some tokenUserDoc)) ∧
    (contractDoc "a.sol:T".toList tokenAbi (some tokenDevDoc) (some tokenUserDoc)).fallback
      = none :=
  ⟨by decide,
    ((special_members "a.sol:T".toList tokenAbi (some tokenDevDoc)
      (some tokenUserDoc) (by decide)).2.2.2.2.1 [] "constructor(uint256)".toList
      ["balance()".toList, "send(address)".toList, "Sent(address)".toList]
      (by decide) (by decide) (by decide)).1,
    (special_members "a.sol:T".toList tokenAbi (some tokenDevDoc)
      (some tokenUserDoc) (by decide)).2.2.1.2 (by decide)⟩

end Docgen
